import Mathlib

/-!
Verification of the gridlock puzzle engine (src/gridlock.js).

The engine consists of a layout parser (`Level.parse`) and a move engine
(`pieceAt`, `canMoveTo`, `moveByOne`, `move`) over a square grid of
straight pieces.  Coordinates are modelled as `Int` (JS numbers used as
integers here), sizes as `Nat`, the piece list as a Lean `List` whose
order is the JS insertion order, and thrown exceptions as explicit error
values: a stateful call returns the final state paired with the optional
error (`Level × Option GErr`), since in JS a throw from inside `move`
leaves the partial in-place mutations visible.
-/

namespace Gridlock

inductive Orientation
  | horizontal
  | vertical
  deriving DecidableEq, Repr

/-- A piece, as built by `Level.parse`: single-character name, origin
cell `(x, y)`, orientation, and cell count along its axis. -/
structure Piece where
  name : Char
  x : Int
  y : Int
  orientation : Orientation
  size : Nat
  deriving DecidableEq, Repr

/-- A level: square grid dimension `n` and the pieces in insertion order. -/
structure Level where
  n : Nat
  pieces : List Piece
  deriving DecidableEq, Repr

/-- The occupancy predicate of `Level.pieceAt`'s callback: the JS
condition `(piece.orientation == VERTICAL && piece.x == x && piece.y <= y
&& y < piece.y + piece.size) || (piece.orientation == HORIZONTAL && ...)`. -/
def occupies (p : Piece) (x y : Int) : Bool :=
  (p.orientation == Orientation.vertical && p.x == x &&
    decide (p.y ≤ y) && decide (y < p.y + (p.size : Int))) ||
  (p.orientation == Orientation.horizontal && p.y == y &&
    decide (p.x ≤ x) && decide (x < p.x + (p.size : Int)))

/-- `Level.pieceAt`: `this.pieces.find(...)`. -/
def Level.pieceAt (l : Level) (x y : Int) : Option Piece :=
  l.pieces.find? (fun p => occupies p x y)

/-- `Level.canMoveTo`: in-grid and unoccupied. -/
def Level.canMoveTo (l : Level) (x y : Int) : Bool :=
  decide (0 ≤ x) && decide (x < (l.n : Int)) &&
  decide (0 ≤ y) && decide (y < (l.n : Int)) &&
  (l.pieceAt x y).isNone

/-- The exceptions thrown by the move engine, named as in the spec's
error taxonomy: `invalidStep` is `'can only move by 1'`, `noPiece` is
`NoPieceError`, `blocked` is `BlockedMoveError`, `axisViolation` is
`AxisViolationError`. -/
inductive GErr
  | invalidStep
  | noPiece
  | blocked
  | axisViolation
  deriving DecidableEq, Repr

/-- In-place mutation of the piece `find` returned: apply `f` to the
first piece of the list that occupies `(x, y)`. -/
def updateFirst (x y : Int) (f : Piece → Piece) : List Piece → List Piece
  | [] => []
  | p :: rest =>
    if occupies p x y then f p :: rest else p :: updateFirst x y f rest

/-- `Level.moveByOne(x, y, by)`: validate `by`, locate the piece at
`(x, y)`, compute the destination cell just past the piece's edge along
its own axis, check it with `canMoveTo`, and shift the piece's origin. -/
def moveByOne (l : Level) (x y d : Int) : Level × Option GErr :=
  if d ≠ 1 ∧ d ≠ -1 then (l, some GErr.invalidStep)
  else
    match l.pieceAt x y with
    | none => (l, some GErr.noPiece)
    | some p =>
      match p.orientation with
      | Orientation.horizontal =>
        let destX := if d = -1 then p.x - 1 else p.x + (p.size : Int)
        if l.canMoveTo destX p.y then
          ({ n := l.n,
             pieces := updateFirst x y (fun q => { q with x := q.x + d }) l.pieces },
           none)
        else (l, some GErr.blocked)
      | Orientation.vertical =>
        let destY := if d = -1 then p.y - 1 else p.y + (p.size : Int)
        if l.canMoveTo p.x destY then
          ({ n := l.n,
             pieces := updateFirst x y (fun q => { q with y := q.y + d }) l.pieces },
           none)
        else (l, some GErr.blocked)

/-- A `for` loop of `k` calls `this.moveByOne(x, y, d)`; a thrown error
aborts the loop, leaving the state the loop had reached. -/
def moveSteps (x y d : Int) : Nat → Level → Level × Option GErr
  | 0, l => (l, none)
  | Nat.succ k, l =>
    match moveByOne l x y d with
    | (l1, none) => moveSteps x y d k l1
    | (l1, some e) => (l1, some e)

/-- `Level.move(x, y, toX, toY)`: find the piece at `(x, y)`, check the
target stays on its axis, then run the two step loops with the loop
bounds of the source (`x - toX` steps by `-1`, then
`toX - (x + piece.size - 1)` steps by `+1`, and the vertical mirror). -/
def move (l : Level) (x y toX toY : Int) : Level × Option GErr :=
  match l.pieceAt x y with
  | none => (l, some GErr.noPiece)
  | some p =>
    match p.orientation with
    | Orientation.horizontal =>
      if y ≠ toY then (l, some GErr.axisViolation)
      else
        match moveSteps x y (-1) (x - toX).toNat l with
        | (l1, none) => moveSteps x y 1 (toX - (x + (p.size : Int) - 1)).toNat l1
        | (l1, some e) => (l1, some e)
    | Orientation.vertical =>
      if x ≠ toX then (l, some GErr.axisViolation)
      else
        match moveSteps x y (-1) (y - toY).toNat l with
        | (l1, none) => moveSteps x y 1 (toY - (y + (p.size : Int) - 1)).toNat l1
        | (l1, some e) => (l1, some e)

/-! ## The layout parser -/

/-- Parse errors of `Level.parse`, the spec's `FormatError` reasons:
`nonSquare` is `'expected square grid of size n'`, `nonStraight` is
`'non-straight-line piece?'`, `missingMain` is
`'did not find main piece R'`. -/
inductive FormatErr
  | nonSquare
  | nonStraight
  | missingMain
  deriving DecidableEq, Repr

/-- Record one occurrence of character `c` at column `cx`, row `cy` into
the `seen` table (an insertion-ordered list, as JS object values are):
a first occurrence starts a size-1 HORIZONTAL piece at `(cx, cy)`; a
repeat occurrence grows the existing entry and re-derives orientation
from the entry's origin, failing if the cell shares neither its row nor
its column. -/
def extendSeen (c : Char) (cx cy : Int) : List Piece → Except FormatErr (List Piece)
  | [] => Except.ok [{ name := c, x := cx, y := cy,
                       orientation := Orientation.horizontal, size := 1 }]
  | p :: rest =>
    if p.name = c then
      if cy = p.y then
        Except.ok ({ p with
                     size := p.size + 1,
                     orientation := Orientation.horizontal } :: rest)
      else if cx = p.x then
        Except.ok ({ p with
                     size := p.size + 1,
                     orientation := Orientation.vertical } :: rest)
      else Except.error FormatErr.nonStraight
    else
      match extendSeen c cx cy rest with
      | Except.ok rest' => Except.ok (p :: rest')
      | Except.error e => Except.error e

/-- Scan one row's cells left to right, skipping `'.'`. -/
def parseCells (cy : Int) (cx : Int) (seen : List Piece) :
    List Char → Except FormatErr (List Piece)
  | [] => Except.ok seen
  | ch :: rest =>
    if ch = '.' then parseCells cy (cx + 1) seen rest
    else
      match extendSeen ch cx cy seen with
      | Except.ok seen' => parseCells cy (cx + 1) seen' rest
      | Except.error e => Except.error e

/-- Scan the rows top to bottom, checking each row's length against the
row count before scanning its cells. -/
def parseRows (n : Nat) (cy : Int) (seen : List Piece) :
    List (List Char) → Except FormatErr (List Piece)
  | [] => Except.ok seen
  | row :: rest =>
    if row.length ≠ n then Except.error FormatErr.nonSquare
    else
      match parseCells cy 0 seen row with
      | Except.ok seen' => parseRows n (cy + 1) seen' rest
      | Except.error e => Except.error e

/-- `Level.parse`: the input is modelled after `trim().split('\n')`, as
the list of rows (each a list of characters).  Scan all rows, then
require the main piece `'R'` to have been seen. -/
def parse (rows : List (List Char)) : Except FormatErr Level :=
  match parseRows rows.length 0 [] rows with
  | Except.error e => Except.error e
  | Except.ok seen =>
    if seen.any (fun p => p.name = 'R') then Except.ok ⟨rows.length, seen⟩
    else Except.error FormatErr.missingMain

/-! ## Auxiliary notions used to state and prove the claims -/

/-- The destination cell `moveByOne` tests: the cell just past the
piece's trailing edge (`d = -1`) or leading edge (`d = 1`) along the
piece's own axis. -/
def destCell (p : Piece) (d : Int) : Int × Int :=
  match p.orientation with
  | Orientation.horizontal =>
    (if d = -1 then p.x - 1 else p.x + (p.size : Int), p.y)
  | Orientation.vertical =>
    (p.x, if d = -1 then p.y - 1 else p.y + (p.size : Int))

/-- Shift a piece's origin by `j` cells along its own orientation axis. -/
def shiftBy (j : Int) (p : Piece) : Piece :=
  match p.orientation with
  | Orientation.horizontal => { p with x := p.x + j }
  | Orientation.vertical => { p with y := p.y + j }

theorem occupies_iff_h {p : Piece} {x y : Int}
    (hp : p.orientation = Orientation.horizontal) :
    occupies p x y = true ↔ p.y = y ∧ p.x ≤ x ∧ x < p.x + (p.size : Int) := by
  simp [occupies, hp, and_assoc]

theorem occupies_iff_v {p : Piece} {x y : Int}
    (hp : p.orientation = Orientation.vertical) :
    occupies p x y = true ↔ p.x = x ∧ p.y ≤ y ∧ y < p.y + (p.size : Int) := by
  simp [occupies, hp, and_assoc]

theorem occupies_size_pos {p : Piece} {x y : Int}
    (h : occupies p x y = true) : 0 < p.size := by
  cases hp : p.orientation
  · rw [occupies_iff_h hp] at h; omega
  · rw [occupies_iff_v hp] at h; omega

theorem shiftBy_orient (j : Int) (p : Piece) :
    (shiftBy j p).orientation = p.orientation := by
  cases hp : p.orientation <;> simp [shiftBy, hp]

theorem shiftBy_name (j : Int) (p : Piece) : (shiftBy j p).name = p.name := by
  cases hp : p.orientation <;> simp [shiftBy, hp]

theorem shiftBy_size (j : Int) (p : Piece) : (shiftBy j p).size = p.size := by
  cases hp : p.orientation <;> simp [shiftBy, hp]

theorem shiftBy_zero (p : Piece) : shiftBy 0 p = p := by
  obtain ⟨n1, x1, y1, o1, s1⟩ := p
  cases o1 <;> simp [shiftBy]

theorem shiftBy_shiftBy (i j : Int) (p : Piece) :
    shiftBy j (shiftBy i p) = shiftBy (i + j) p := by
  obtain ⟨n1, x1, y1, o1, s1⟩ := p
  cases o1 <;> simp [shiftBy, add_assoc]

theorem shiftBy_x_h {p : Piece} (j : Int)
    (hp : p.orientation = Orientation.horizontal) :
    (shiftBy j p).x = p.x + j ∧ (shiftBy j p).y = p.y := by
  simp [shiftBy, hp]

theorem shiftBy_y_v {p : Piece} (j : Int)
    (hp : p.orientation = Orientation.vertical) :
    (shiftBy j p).y = p.y + j ∧ (shiftBy j p).x = p.x := by
  simp [shiftBy, hp]

/-- A single-cell shift only adds the destination cell: any cell of the
shifted piece is a cell of the original piece or the destination. -/
theorem occupies_shiftBy_step {p : Piece} {a b d : Int}
    (hd : d = 1 ∨ d = -1)
    (h : occupies (shiftBy d p) a b = true) :
    occupies p a b = true ∨ (a = (destCell p d).1 ∧ b = (destCell p d).2) := by
  cases hp : p.orientation
  · have hp' : (shiftBy d p).orientation = Orientation.horizontal := by
      rw [shiftBy_orient, hp]
    rw [occupies_iff_h hp'] at h
    rw [occupies_iff_h hp]
    obtain ⟨hx, hy⟩ := shiftBy_x_h d hp
    rw [hx, hy, shiftBy_size] at h
    simp only [destCell, hp]
    rcases hd with hd | hd <;> subst hd
    · rw [if_neg (by norm_num : ¬(1 : Int) = -1)]; omega
    · rw [if_pos rfl]; omega
  · have hp' : (shiftBy d p).orientation = Orientation.vertical := by
      rw [shiftBy_orient, hp]
    rw [occupies_iff_v hp'] at h
    rw [occupies_iff_v hp]
    obtain ⟨hy, hx⟩ := shiftBy_y_v d hp
    rw [hx, hy, shiftBy_size] at h
    simp only [destCell, hp]
    rcases hd with hd | hd <;> subst hd
    · rw [if_neg (by norm_num : ¬(1 : Int) = -1)]; omega
    · rw [if_pos rfl]; omega

/-! ### Locating the first occupant of a cell in the piece list -/

theorem find?_first_of (f : Piece → Bool) :
    ∀ (pre : List Piece) (p : Piece) (suf : List Piece),
      (∀ q ∈ pre, f q = false) → f p = true →
      List.find? f (pre ++ p :: suf) = some p := by
  intro pre
  induction pre with
  | nil =>
    intro p suf _ hp
    simp [List.find?_cons, hp]
  | cons q rest ih =>
    intro p suf hpre hp
    have hq : f q = false := hpre q (by simp)
    have := ih p suf (fun r hr => hpre r (by simp [hr])) hp
    simp [List.find?_cons, hq, this]

theorem find?_decomp (f : Piece → Bool) :
    ∀ (ps : List Piece) (p : Piece), ps.find? f = some p →
      ∃ pre suf, ps = pre ++ p :: suf ∧ (∀ q ∈ pre, f q = false) ∧ f p = true := by
  intro ps
  induction ps with
  | nil => intro p h; simp at h
  | cons q rest ih =>
    intro p h
    by_cases hq : f q = true
    · have hfq : List.find? f (q :: rest) = some q := by
        simp [List.find?_cons, hq]
      rw [hfq] at h
      injection h with h
      subst h
      exact ⟨[], rest, by simp, by simp, hq⟩
    · have hq' : f q = false := by simpa using hq
      rw [List.find?_cons, hq'] at h
      obtain ⟨pre, suf, hps, hpre, hp⟩ := ih p h
      exact ⟨q :: pre, suf, by simp [hps], by
        intro r hr
        rcases List.mem_cons.mp hr with h1 | h1
        · subst h1; exact hq'
        · exact hpre r h1, hp⟩

theorem pieceAt_decomp {l : Level} {x y : Int} {p : Piece}
    (h : l.pieceAt x y = some p) :
    ∃ pre suf, l.pieces = pre ++ p :: suf ∧
      (∀ q ∈ pre, occupies q x y = false) ∧ occupies p x y = true :=
  find?_decomp (fun q => occupies q x y) l.pieces p h

theorem pieceAt_of_decomp {n : Nat} {pre suf : List Piece} {p : Piece} {x y : Int}
    (hpre : ∀ q ∈ pre, occupies q x y = false) (hp : occupies p x y = true) :
    Level.pieceAt ⟨n, pre ++ p :: suf⟩ x y = some p :=
  find?_first_of (fun q => occupies q x y) pre p suf hpre hp

theorem pieceAt_eq_none_iff {l : Level} {x y : Int} :
    l.pieceAt x y = none ↔ ∀ p ∈ l.pieces, occupies p x y = false := by
  unfold Level.pieceAt
  rw [List.find?_eq_none]
  constructor
  · intro h p hp; simpa using h p hp
  · intro h p hp; simp [h p hp]

theorem updateFirst_decomp (x y : Int) (f : Piece → Piece) :
    ∀ (pre : List Piece) (p : Piece) (suf : List Piece),
      (∀ q ∈ pre, occupies q x y = false) → occupies p x y = true →
      updateFirst x y f (pre ++ p :: suf) = pre ++ f p :: suf := by
  intro pre
  induction pre with
  | nil => intro p suf _ hp; simp [updateFirst, hp]
  | cons q rest ih =>
    intro p suf hpre hp
    have hq : occupies q x y = false := hpre q (by simp)
    have := ih p suf (fun r hr => hpre r (by simp [hr])) hp
    simp [updateFirst, hq, this]

/-! ### Characterizations of `moveByOne` -/

theorem moveByOne_invalid {l : Level} {x y d : Int}
    (hd : ¬(d = 1 ∨ d = -1)) :
    moveByOne l x y d = (l, some GErr.invalidStep) := by
  have h : d ≠ 1 ∧ d ≠ -1 := by tauto
  simp [moveByOne, h]

theorem moveByOne_noPiece {l : Level} {x y d : Int}
    (hd : d = 1 ∨ d = -1) (h : l.pieceAt x y = none) :
    moveByOne l x y d = (l, some GErr.noPiece) := by
  have hd' : ¬(d ≠ 1 ∧ d ≠ -1) := by tauto
  simp [moveByOne, hd', h]

theorem moveByOne_blocked {l : Level} {x y d : Int} {p : Piece}
    (hd : d = 1 ∨ d = -1) (h : l.pieceAt x y = some p)
    (hc : l.canMoveTo (destCell p d).1 (destCell p d).2 = false) :
    moveByOne l x y d = (l, some GErr.blocked) := by
  have hd' : ¬(d ≠ 1 ∧ d ≠ -1) := by tauto
  cases hp : p.orientation
  · simp only [destCell, hp] at hc
    simp [moveByOne, hd', h, hp, hc]
  · simp only [destCell, hp] at hc
    simp [moveByOne, hd', h, hp, hc]

theorem moveByOne_ok_of {l : Level} {x y d : Int} {p : Piece}
    {pre suf : List Piece}
    (hd : d = 1 ∨ d = -1) (hps : l.pieces = pre ++ p :: suf)
    (hpre : ∀ q ∈ pre, occupies q x y = false) (hp : occupies p x y = true)
    (hc : l.canMoveTo (destCell p d).1 (destCell p d).2 = true) :
    moveByOne l x y d = (⟨l.n, pre ++ shiftBy d p :: suf⟩, none) := by
  have hd' : ¬(d ≠ 1 ∧ d ≠ -1) := by tauto
  have hfind : l.pieceAt x y = some p := by
    unfold Level.pieceAt
    rw [hps]
    exact find?_first_of _ pre p suf hpre hp
  cases hp' : p.orientation
  · simp only [destCell, hp'] at hc
    have hupd := updateFirst_decomp x y (fun q => { q with x := q.x + d })
      pre p suf hpre hp
    simp only [moveByOne, hd', if_neg, hfind, hp', hc, if_true, hps, hupd]
    simp [shiftBy, hp']
  · simp only [destCell, hp'] at hc
    have hupd := updateFirst_decomp x y (fun q => { q with y := q.y + d })
      pre p suf hpre hp
    simp only [moveByOne, hd', if_neg, hfind, hp', hc, if_true, hps, hupd]
    simp [shiftBy, hp']

theorem moveByOne_fst_of_err {l : Level} {x y d : Int} {l' : Level} {e : GErr}
    (h : moveByOne l x y d = (l', some e)) : l' = l := by
  by_cases hd : d = 1 ∨ d = -1
  · cases hfind : l.pieceAt x y with
    | none =>
      rw [moveByOne_noPiece hd hfind] at h
      injection h with h1 h2
      exact h1.symm
    | some p =>
      cases hc : l.canMoveTo (destCell p d).1 (destCell p d).2 with
      | false =>
        rw [moveByOne_blocked hd hfind hc] at h
        injection h with h1 h2
        exact h1.symm
      | true =>
        obtain ⟨pre, suf, hps, hpre, hp⟩ := pieceAt_decomp hfind
        rw [moveByOne_ok_of hd hps hpre hp hc] at h
        injection h with h1 h2
        exact absurd h2 (by simp)
  · rw [moveByOne_invalid hd] at h
    injection h with h1 h2
    exact h1.symm

theorem moveByOne_ok_decomp {l l' : Level} {x y d : Int}
    (h : moveByOne l x y d = (l', none)) :
    (d = 1 ∨ d = -1) ∧
    ∃ pre p suf, l.pieces = pre ++ p :: suf ∧
      (∀ q ∈ pre, occupies q x y = false) ∧ occupies p x y = true ∧
      l.canMoveTo (destCell p d).1 (destCell p d).2 = true ∧
      l' = ⟨l.n, pre ++ shiftBy d p :: suf⟩ := by
  by_cases hd : d = 1 ∨ d = -1
  · refine ⟨hd, ?_⟩
    cases hfind : l.pieceAt x y with
    | none => rw [moveByOne_noPiece hd hfind] at h; simp at h
    | some p =>
      obtain ⟨pre, suf, hps, hpre, hp⟩ := pieceAt_decomp hfind
      cases hc : l.canMoveTo (destCell p d).1 (destCell p d).2 with
      | false => rw [moveByOne_blocked hd hfind hc] at h; simp at h
      | true =>
        rw [moveByOne_ok_of hd hps hpre hp hc] at h
        exact ⟨pre, p, suf, hps, hpre, hp, hc,
          ((Prod.mk.injEq _ _ _ _ ▸ h).1).symm⟩
  · rw [moveByOne_invalid hd] at h
    simp at h

/-! ### The level invariant: pieces in the grid, no two overlapping -/

/-- Every cell the piece occupies lies within the `n × n` grid. -/
def InGridPiece (n : Nat) (p : Piece) : Prop :=
  ∀ a b : Int, occupies p a b = true →
    0 ≤ a ∧ a < (n : Int) ∧ 0 ≤ b ∧ b < (n : Int)

/-- Two pieces occupy no common cell. -/
def DisjPieces (p q : Piece) : Prop :=
  ∀ a b : Int, ¬(occupies p a b = true ∧ occupies q a b = true)

/-- The level invariant of the spec's data model: every piece's occupied
cells lie within `[0,n) × [0,n)` and no two pieces overlap. -/
def Inv (l : Level) : Prop :=
  (∀ p ∈ l.pieces, InGridPiece l.n p) ∧ l.pieces.Pairwise DisjPieces

theorem canMoveTo_iff {l : Level} {a b : Int} :
    l.canMoveTo a b = true ↔
      0 ≤ a ∧ a < (l.n : Int) ∧ 0 ≤ b ∧ b < (l.n : Int) ∧
        l.pieceAt a b = none := by
  simp [Level.canMoveTo, Option.isNone_iff_eq_none, and_assoc]

theorem inv_moveByOne {l : Level} (x y d : Int) (hinv : Inv l) :
    Inv (moveByOne l x y d).1 := by
  rcases hmv : moveByOne l x y d with ⟨l', r⟩
  cases r with
  | some e =>
    have := moveByOne_fst_of_err hmv
    simpa [this] using hinv
  | none =>
    obtain ⟨hd, pre, p, suf, hps, hpre, hp, hc, hl'⟩ := moveByOne_ok_decomp hmv
    subst hl'
    obtain ⟨hb1, hb2, hb3, hb4, hnone⟩ := canMoveTo_iff.mp hc
    have hfree : ∀ q ∈ l.pieces,
        occupies q (destCell p d).1 (destCell p d).2 = false :=
      pieceAt_eq_none_iff.mp hnone
    have hpmem : p ∈ l.pieces := by rw [hps]; simp
    obtain ⟨hgrid, hpair⟩ := hinv
    rw [hps] at hpair
    rw [List.pairwise_append, List.pairwise_cons] at hpair
    obtain ⟨hPpre, ⟨hPsuf1, hPsuf2⟩, hcross⟩ := hpair
    constructor
    · intro q hq a b hab
      simp only [List.mem_append, List.mem_cons] at hq
      rcases hq with hq | hq | hq
      · exact hgrid q (by rw [hps]; simp [hq]) a b hab
      · subst hq
        rcases occupies_shiftBy_step hd hab with hold | ⟨ha, hb⟩
        · exact hgrid p hpmem a b hold
        · subst ha; subst hb; exact ⟨hb1, hb2, hb3, hb4⟩
      · exact hgrid q (by rw [hps]; simp [hq]) a b hab
    · rw [List.pairwise_append, List.pairwise_cons]
      refine ⟨hPpre, ⟨?_, hPsuf2⟩, ?_⟩
      · intro q hq a b
        rintro ⟨h1, h2⟩
        rcases occupies_shiftBy_step hd h1 with hold | ⟨ha, hb⟩
        · exact hPsuf1 q hq a b ⟨hold, h2⟩
        · subst ha; subst hb
          have := hfree q (by rw [hps]; simp [hq])
          rw [this] at h2
          cases h2
      · intro q hq b' hb'
        rcases List.mem_cons.mp hb' with hb' | hb'
        · subst hb'
          intro a b
          rintro ⟨h1, h2⟩
          rcases occupies_shiftBy_step hd h2 with hold | ⟨ha, hb⟩
          · exact hcross q hq p (by simp) a b ⟨h1, hold⟩
          · subst ha; subst hb
            have := hfree q (by rw [hps]; simp [hq])
            rw [this] at h1
            cases h1
        · exact hcross q hq b' (by simp [hb'])

theorem inv_moveSteps (x y d : Int) :
    ∀ (k : Nat) (l : Level), Inv l → Inv (moveSteps x y d k l).1 := by
  intro k
  induction k with
  | zero => intro l hinv; exact hinv
  | succ k ih =>
    intro l hinv
    show Inv (moveSteps x y d (Nat.succ k) l).1
    rw [moveSteps]
    rcases hmv : moveByOne l x y d with ⟨l1, r⟩
    have hinv1 : Inv l1 := by
      have := inv_moveByOne x y d hinv
      rwa [hmv] at this
    cases r with
    | none => exact ih l1 hinv1
    | some e => exact hinv1

theorem inv_move {l : Level} (x y toX toY : Int) (hinv : Inv l) :
    Inv (move l x y toX toY).1 := by
  cases hfind : l.pieceAt x y with
  | none => simp [move, hfind]; exact hinv
  | some p =>
    cases hp : p.orientation
    · by_cases hy : y ≠ toY
      · simp [move, hfind, hp, hy]; exact hinv
      · simp only [move, hfind, hp, if_neg hy]
        rcases h1 : moveSteps x y (-1) (x - toX).toNat l with ⟨l1, r1⟩
        have hinv1 : Inv l1 := by
          have := inv_moveSteps x y (-1) (x - toX).toNat l hinv
          rwa [h1] at this
        cases r1 with
        | none =>
          have := inv_moveSteps x y 1 (toX - (x + (p.size : Int) - 1)).toNat l1 hinv1
          simpa [h1] using this
        | some e => simpa [h1] using hinv1
    · by_cases hx : x ≠ toX
      · simp [move, hfind, hp, hx]; exact hinv
      · simp only [move, hfind, hp, if_neg hx]
        rcases h1 : moveSteps x y (-1) (y - toY).toNat l with ⟨l1, r1⟩
        have hinv1 : Inv l1 := by
          have := inv_moveSteps x y (-1) (y - toY).toNat l hinv
          rwa [h1] at this
        cases r1 with
        | none =>
          have := inv_moveSteps x y 1 (toY - (y + (p.size : Int) - 1)).toNat l1 hinv1
          simpa [h1] using this
        | some e => simpa [h1] using hinv1

/-! ### Iterated single steps -/

theorem moveSteps_split (x y d : Int) :
    ∀ (j k : Nat) (l : Level),
      moveSteps x y d (j + k) l =
        match moveSteps x y d j l with
        | (l1, none) => moveSteps x y d k l1
        | (l1, some e) => (l1, some e) := by
  intro j
  induction j with
  | zero =>
    intro k l
    simp [moveSteps]
  | succ j ih =>
    intro k l
    have hadd : j + 1 + k = Nat.succ (j + k) := by omega
    rw [hadd]
    show (match moveByOne l x y d with
          | (l1, none) => moveSteps x y d (j + k) l1
          | (l1, some e) => (l1, some e)) = _
    rcases hmv : moveByOne l x y d with ⟨l1, r⟩
    cases r with
    | none =>
      show moveSteps x y d (j + k) l1 = _
      rw [ih k l1]
      show _ = (match (match moveByOne l x y d with
            | (l1, none) => moveSteps x y d j l1
            | (l1, some e) => (l1, some e)) with
          | (l1, none) => moveSteps x y d k l1
          | (l1, some e) => (l1, some e))
      rw [hmv]
    | some e =>
      show (l1, some e) = _
      conv_rhs =>
        rw [show moveSteps x y d (j + 1) l =
          (match moveByOne l x y d with
           | (l1, none) => moveSteps x y d j l1
           | (l1, some e) => (l1, some e)) from rfl]
      rw [hmv]

/-- If `k` single steps all succeed, they have moved the first piece that
occupied the clicked cell by `k` cells along its axis, provided no other
piece ever occupies the clicked cell. -/
theorem moveSteps_ok_shape (x y d : Int) (hd : d = 1 ∨ d = -1) :
    ∀ (k : Nat) (l : Level) (pre suf : List Piece) (p : Piece),
      l.pieces = pre ++ p :: suf →
      (∀ q ∈ pre, occupies q x y = false) →
      (∀ q ∈ suf, occupies q x y = false) →
      occupies p x y = true →
      (moveSteps x y d k l).2 = none →
      (moveSteps x y d k l).1 = ⟨l.n, pre ++ shiftBy ((k : Int) * d) p :: suf⟩ := by
  intro k
  induction k with
  | zero =>
    intro l pre suf p hps _ _ _ _
    show l = _
    obtain ⟨n, ps⟩ := l
    simp only at hps
    rw [hps]
    simp [shiftBy_zero]
  | succ k ih =>
    intro l pre suf p hps hpre hsuf hp hnone
    have hfind : l.pieceAt x y = some p := by
      unfold Level.pieceAt; rw [hps]
      exact find?_first_of _ pre p suf hpre hp
    cases hc : l.canMoveTo (destCell p d).1 (destCell p d).2 with
    | false =>
      have hblk := moveByOne_blocked hd hfind hc
      have hred : moveSteps x y d (k + 1) l = (l, some GErr.blocked) := by
        show (match moveByOne l x y d with
              | (l1, none) => moveSteps x y d k l1
              | (l1, some e) => (l1, some e)) = _
        rw [hblk]
      rw [hred] at hnone
      simp at hnone
    | true =>
      have hok := moveByOne_ok_of hd hps hpre hp hc
      have hred : moveSteps x y d (k + 1) l =
          moveSteps x y d k ⟨l.n, pre ++ shiftBy d p :: suf⟩ := by
        show (match moveByOne l x y d with
              | (l1, none) => moveSteps x y d k l1
              | (l1, some e) => (l1, some e)) = _
        rw [hok]
      rw [hred] at hnone ⊢
      by_cases hocc1 : occupies (shiftBy d p) x y = true
      · have hres := ih ⟨l.n, pre ++ shiftBy d p :: suf⟩ pre suf (shiftBy d p)
          rfl hpre hsuf hocc1 hnone
        rw [hres]
        show (⟨l.n, pre ++ shiftBy ((k : Int) * d) (shiftBy d p) :: suf⟩ : Level) = _
        rw [shiftBy_shiftBy]
        have harith : d + (k : Int) * d = ((k + 1 : Nat) : Int) * d := by
          push_cast; ring
        rw [harith]
      · have hocc1' : occupies (shiftBy d p) x y = false := by simpa using hocc1
        have hnone1 :
            Level.pieceAt ⟨l.n, pre ++ shiftBy d p :: suf⟩ x y = none := by
          rw [pieceAt_eq_none_iff]
          intro q hq
          simp only [List.mem_append, List.mem_cons] at hq
          rcases hq with hq | hq | hq
          · exact hpre q hq
          · subst hq; exact hocc1'
          · exact hsuf q hq
        cases k with
        | zero =>
          show (⟨l.n, pre ++ shiftBy d p :: suf⟩ : Level) = _
          have harith : d = ((0 + 1 : Nat) : Int) * d := by push_cast; ring
          conv_lhs => rw [harith]
        | succ k' =>
          have hnp := moveByOne_noPiece hd hnone1
          have hred2 : moveSteps x y d (k' + 1)
                (⟨l.n, pre ++ shiftBy d p :: suf⟩ : Level) =
              (⟨l.n, pre ++ shiftBy d p :: suf⟩, some GErr.noPiece) := by
            show (match moveByOne (⟨l.n, pre ++ shiftBy d p :: suf⟩ : Level) x y d with
                  | (l2, none) => moveSteps x y d k' l2
                  | (l2, some e) => (l2, some e)) = _
            rw [hnp]
          rw [hred2] at hnone
          simp at hnone

theorem pieceAt_replace {n : Nat} (pre suf : List Piece) (p p1 : Piece)
    {a b : Int} (hp : occupies p a b = false) (hp1 : occupies p1 a b = false) :
    Level.pieceAt ⟨n, pre ++ p1 :: suf⟩ a b =
      Level.pieceAt ⟨n, pre ++ p :: suf⟩ a b := by
  unfold Level.pieceAt
  simp only [List.find?_append, List.find?_cons, hp, hp1]

theorem canMoveTo_replace {n : Nat} (pre suf : List Piece) (p p1 : Piece)
    {a b : Int} (hp : occupies p a b = false) (hp1 : occupies p1 a b = false) :
    Level.canMoveTo ⟨n, pre ++ p1 :: suf⟩ a b =
      Level.canMoveTo ⟨n, pre ++ p :: suf⟩ a b := by
  unfold Level.canMoveTo
  rw [pieceAt_replace pre suf p p1 hp hp1]

theorem occupies_eq_false_iff {p : Piece} {x y : Int} :
    occupies p x y = false ↔ ¬ occupies p x y = true := by
  cases h : occupies p x y <;> simp

/-- Running `m` leftward single steps from a horizontal piece succeeds
when the clicked cell keeps the piece in reach at every step and the `m`
cells to the left of its origin are reachable; the piece ends `m` cells
to the left. -/
theorem moveSteps_run_left_h (x y : Int) :
    ∀ (m : Nat) (n : Nat) (pre suf : List Piece) (p : Piece),
      (∀ q ∈ pre, occupies q x y = false) →
      p.orientation = Orientation.horizontal →
      (∀ k : Nat, k < m → occupies (shiftBy (-(k : Int)) p) x y = true) →
      (∀ c : Int, p.x - (m : Int) ≤ c → c < p.x →
        Level.canMoveTo ⟨n, pre ++ p :: suf⟩ c y = true) →
      moveSteps x y (-1) m ⟨n, pre ++ p :: suf⟩ =
        (⟨n, pre ++ shiftBy (-(m : Int)) p :: suf⟩, none) := by
  intro m
  induction m with
  | zero =>
    intro n pre suf p hpre hor hk hfree
    simp [moveSteps, shiftBy_zero]
  | succ m ih =>
    intro n pre suf p hpre hor hk hfree
    have hd : (-1 : Int) = 1 ∨ (-1 : Int) = -1 := Or.inr rfl
    have hocc0 : occupies p x y = true := by
      have := hk 0 (by omega)
      simpa [shiftBy_zero] using this
    have hpy : p.y = y := ((occupies_iff_h hor).mp hocc0).1
    have hdest1 : (destCell p (-1)).1 = p.x - 1 := by simp [destCell, hor]
    have hdest2 : (destCell p (-1)).2 = p.y := by simp [destCell, hor]
    have hcm : Level.canMoveTo ⟨n, pre ++ p :: suf⟩
        (destCell p (-1)).1 (destCell p (-1)).2 = true := by
      rw [hdest1, hdest2, hpy]
      exact hfree (p.x - 1) (by push_cast; omega) (by omega)
    have hok := moveByOne_ok_of (l := ⟨n, pre ++ p :: suf⟩) hd rfl hpre hocc0 hcm
    have hred : moveSteps x y (-1) (m + 1) (⟨n, pre ++ p :: suf⟩ : Level) =
        moveSteps x y (-1) m ⟨n, pre ++ shiftBy (-1) p :: suf⟩ := by
      show (match moveByOne ⟨n, pre ++ p :: suf⟩ x y (-1) with
            | (l1, none) => moveSteps x y (-1) m l1
            | (l1, some e) => (l1, some e)) = _
      rw [hok]
    rw [hred]
    have hor1 : (shiftBy (-1) p).orientation = Orientation.horizontal := by
      rw [shiftBy_orient]; exact hor
    have hx1 : (shiftBy (-1) p).x = p.x + (-1) := (shiftBy_x_h (-1) hor).1
    have hk1 : ∀ k : Nat, k < m →
        occupies (shiftBy (-(k : Int)) (shiftBy (-1) p)) x y = true := by
      intro k hkm
      have heq : shiftBy (-(k : Int)) (shiftBy (-1) p) =
          shiftBy (-((k + 1 : Nat) : Int)) p := by
        rw [shiftBy_shiftBy]; congr 1; push_cast; ring
      rw [heq]
      exact hk (k + 1) (by omega)
    have hfree1 : ∀ c : Int, (shiftBy (-1) p).x - (m : Int) ≤ c →
        c < (shiftBy (-1) p).x →
        Level.canMoveTo ⟨n, pre ++ shiftBy (-1) p :: suf⟩ c y = true := by
      intro c h1 h2
      rw [hx1] at h1 h2
      have horig := hfree c (by push_cast; omega) (by omega)
      have hpc : occupies p c y = false := occupies_eq_false_iff.mpr (by
        rw [occupies_iff_h hor]
        rintro ⟨-, hle, -⟩
        omega)
      have hpc1 : occupies (shiftBy (-1) p) c y = false :=
        occupies_eq_false_iff.mpr (by
          rw [occupies_iff_h hor1, hx1]
          rintro ⟨-, hle, -⟩
          omega)
      rw [canMoveTo_replace pre suf p (shiftBy (-1) p) hpc hpc1]
      exact horig
    have hres := ih n pre suf (shiftBy (-1) p) hpre hor1 hk1 hfree1
    rw [hres]
    have heq2 : shiftBy (-(m : Int)) (shiftBy (-1) p) =
        shiftBy (-((m + 1 : Nat) : Int)) p := by
      rw [shiftBy_shiftBy]; congr 1; push_cast; ring
    rw [heq2]

/-- The vertical mirror of `moveSteps_run_left_h`: `m` upward steps. -/
theorem moveSteps_run_left_v (x y : Int) :
    ∀ (m : Nat) (n : Nat) (pre suf : List Piece) (p : Piece),
      (∀ q ∈ pre, occupies q x y = false) →
      p.orientation = Orientation.vertical →
      (∀ k : Nat, k < m → occupies (shiftBy (-(k : Int)) p) x y = true) →
      (∀ c : Int, p.y - (m : Int) ≤ c → c < p.y →
        Level.canMoveTo ⟨n, pre ++ p :: suf⟩ x c = true) →
      moveSteps x y (-1) m ⟨n, pre ++ p :: suf⟩ =
        (⟨n, pre ++ shiftBy (-(m : Int)) p :: suf⟩, none) := by
  intro m
  induction m with
  | zero =>
    intro n pre suf p hpre hor hk hfree
    simp [moveSteps, shiftBy_zero]
  | succ m ih =>
    intro n pre suf p hpre hor hk hfree
    have hd : (-1 : Int) = 1 ∨ (-1 : Int) = -1 := Or.inr rfl
    have hocc0 : occupies p x y = true := by
      have := hk 0 (by omega)
      simpa [shiftBy_zero] using this
    have hpx : p.x = x := ((occupies_iff_v hor).mp hocc0).1
    have hdest1 : (destCell p (-1)).1 = p.x := by simp [destCell, hor]
    have hdest2 : (destCell p (-1)).2 = p.y - 1 := by simp [destCell, hor]
    have hcm : Level.canMoveTo ⟨n, pre ++ p :: suf⟩
        (destCell p (-1)).1 (destCell p (-1)).2 = true := by
      rw [hdest1, hdest2, hpx]
      exact hfree (p.y - 1) (by push_cast; omega) (by omega)
    have hok := moveByOne_ok_of (l := ⟨n, pre ++ p :: suf⟩) hd rfl hpre hocc0 hcm
    have hred : moveSteps x y (-1) (m + 1) (⟨n, pre ++ p :: suf⟩ : Level) =
        moveSteps x y (-1) m ⟨n, pre ++ shiftBy (-1) p :: suf⟩ := by
      show (match moveByOne ⟨n, pre ++ p :: suf⟩ x y (-1) with
            | (l1, none) => moveSteps x y (-1) m l1
            | (l1, some e) => (l1, some e)) = _
      rw [hok]
    rw [hred]
    have hor1 : (shiftBy (-1) p).orientation = Orientation.vertical := by
      rw [shiftBy_orient]; exact hor
    have hy1 : (shiftBy (-1) p).y = p.y + (-1) := (shiftBy_y_v (-1) hor).1
    have hx1 : (shiftBy (-1) p).x = p.x := (shiftBy_y_v (-1) hor).2
    have hk1 : ∀ k : Nat, k < m →
        occupies (shiftBy (-(k : Int)) (shiftBy (-1) p)) x y = true := by
      intro k hkm
      have heq : shiftBy (-(k : Int)) (shiftBy (-1) p) =
          shiftBy (-((k + 1 : Nat) : Int)) p := by
        rw [shiftBy_shiftBy]; congr 1; push_cast; ring
      rw [heq]
      exact hk (k + 1) (by omega)
    have hfree1 : ∀ c : Int, (shiftBy (-1) p).y - (m : Int) ≤ c →
        c < (shiftBy (-1) p).y →
        Level.canMoveTo ⟨n, pre ++ shiftBy (-1) p :: suf⟩ x c = true := by
      intro c h1 h2
      rw [hy1] at h1 h2
      have horig := hfree c (by push_cast; omega) (by omega)
      have hpc : occupies p x c = false := occupies_eq_false_iff.mpr (by
        rw [occupies_iff_v hor]
        rintro ⟨-, hle, -⟩
        omega)
      have hpc1 : occupies (shiftBy (-1) p) x c = false :=
        occupies_eq_false_iff.mpr (by
          rw [occupies_iff_v hor1, hy1]
          rintro ⟨-, hle, -⟩
          omega)
      rw [canMoveTo_replace pre suf p (shiftBy (-1) p) hpc hpc1]
      exact horig
    have hres := ih n pre suf (shiftBy (-1) p) hpre hor1 hk1 hfree1
    rw [hres]
    have heq2 : shiftBy (-(m : Int)) (shiftBy (-1) p) =
        shiftBy (-((m + 1 : Nat) : Int)) p := by
      rw [shiftBy_shiftBy]; congr 1; push_cast; ring
    rw [heq2]

/-! ### Concrete levels -/

/-- The example grid of the source comment and spec section 8. -/
def exRows : List (List Char) :=
  [['W', 'W', 'E', 'E', 'E', 'B'],
   ['.', '.', 'F', '.', '.', 'B'],
   ['R', 'R', 'F', '.', '.', 'D'],
   ['.', '.', 'F', '.', '.', 'D'],
   ['X', 'Y', 'Y', '.', 'Z', '.'],
   ['X', '.', '.', '.', 'Z', '.']]

/-- The parse of `exRows`, with pieces in first-seen order. -/
def exLevel : Level :=
  ⟨6, [⟨'W', 0, 0, Orientation.horizontal, 2⟩,
       ⟨'E', 2, 0, Orientation.horizontal, 3⟩,
       ⟨'B', 5, 0, Orientation.vertical, 2⟩,
       ⟨'F', 2, 1, Orientation.vertical, 3⟩,
       ⟨'R', 0, 2, Orientation.horizontal, 2⟩,
       ⟨'D', 5, 2, Orientation.vertical, 2⟩,
       ⟨'X', 0, 4, Orientation.vertical, 2⟩,
       ⟨'Y', 1, 4, Orientation.horizontal, 2⟩,
       ⟨'Z', 4, 4, Orientation.vertical, 2⟩]⟩

/-- A one-piece 3×3 level: `.RR / ... / ...`. -/
def w3 : Level := ⟨3, [⟨'R', 1, 0, Orientation.horizontal, 2⟩]⟩

theorem inv_w3 : Inv w3 := by
  constructor
  · intro p hp a b hab
    simp only [w3, List.mem_singleton] at hp
    subst hp
    have hab' := (occupies_iff_h rfl).mp hab
    dsimp only at hab'
    dsimp only [w3]
    omega
  · simp [w3]

/-- First match of `find?` is the only occupant when pieces are pairwise
disjoint. -/
theorem find?_of_mem_disj :
    ∀ (ps : List Piece), ps.Pairwise DisjPieces → ∀ p ∈ ps, ∀ a b : Int,
      occupies p a b = true →
      ps.find? (fun q => occupies q a b) = some p := by
  intro ps
  induction ps with
  | nil => intro _ p hp; cases hp
  | cons q rest ih =>
    intro hpw p hp a b hocc
    rw [List.pairwise_cons] at hpw
    by_cases hq : occupies q a b = true
    · have hpq : p = q := by
        rcases List.mem_cons.mp hp with h | h
        · exact h
        · exact absurd ⟨hq, hocc⟩ (hpw.1 p h a b)
      subst hpq
      simp [List.find?_cons, hq]
    · have hq' : occupies q a b = false := by simpa using hq
      rcases List.mem_cons.mp hp with h | h
      · subst h; rw [hocc] at hq'; cases hq'
      · have := ih hpw.2 p h a b hocc
        simp [List.find?_cons, hq', this]

/-- The claim's description of a piece's occupied range: for a
HORIZONTAL piece the cell's `y` equals the piece's row and its `x` falls
in `[piece.x, piece.x + size)`; for a VERTICAL piece symmetrically. -/
def InRangeSpec (p : Piece) (a b : Int) : Prop :=
  (p.orientation = Orientation.horizontal ∧ b = p.y ∧
    p.x ≤ a ∧ a < p.x + (p.size : Int)) ∨
  (p.orientation = Orientation.vertical ∧ a = p.x ∧
    p.y ≤ b ∧ b < p.y + (p.size : Int))

theorem inRangeSpec_iff {p : Piece} {a b : Int} :
    InRangeSpec p a b ↔ occupies p a b = true := by
  cases hp : p.orientation
  · rw [occupies_iff_h hp]
    unfold InRangeSpec
    simp only [hp]
    constructor
    · rintro (⟨-, h1, h2, h3⟩ | ⟨h0, -⟩)
      · exact ⟨h1.symm, h2, h3⟩
      · cases h0
    · rintro ⟨h1, h2, h3⟩
      exact Or.inl ⟨trivial, h1.symm, h2, h3⟩
  · rw [occupies_iff_v hp]
    unfold InRangeSpec
    simp only [hp]
    constructor
    · rintro (⟨h0, -⟩ | ⟨-, h1, h2, h3⟩)
      · cases h0
      · exact ⟨h1.symm, h2, h3⟩
    · rintro ⟨h1, h2, h3⟩
      exact Or.inr ⟨trivial, h1.symm, h2, h3⟩

/-- A call into the move engine: a single step or a multi-step slide. -/
inductive Cmd
  | one (x y d : Int)
  | slide (x y toX toY : Int)

/-- Apply one engine call, keeping the level it leaves behind whether
the call succeeded or threw. -/
def applyCmd (l : Level) : Cmd → Level
  | Cmd.one x y d => (moveByOne l x y d).1
  | Cmd.slide x y toX toY => (move l x y toX toY).1

/-- Apply a sequence of engine calls. -/
def applyCmds : Level → List Cmd → Level
  | l, [] => l
  | l, c :: cs => applyCmds (applyCmd l c) cs

theorem inv_applyCmds :
    ∀ (cs : List Cmd) (l : Level), Inv l → Inv (applyCmds l cs) := by
  intro cs
  induction cs with
  | nil => intro l hinv; exact hinv
  | cons c cs ih =>
    intro l hinv
    show Inv (applyCmds (applyCmd l c) cs)
    apply ih
    cases c with
    | one x y d => exact inv_moveByOne x y d hinv
    | slide x y toX toY => exact inv_move x y toX toY hinv

/-! ## The claims -/

/-- C3: for every Level in which initially every piece's occupied cells
lie within `[0,n) × [0,n)` and no two pieces' occupied-cell sets
intersect, every sequence of calls to `moveByOne` and `move` (whether
each call succeeds or throws) preserves both properties. -/
theorem c3_moves_preserve_invariants (l : Level) (hinv : Inv l)
    (cs : List Cmd) : Inv (applyCmds l cs) :=
  inv_applyCmds cs l hinv

theorem c3_witness :
    Inv (applyCmds w3 [Cmd.slide 1 0 0 0, Cmd.one 1 0 1]) :=
  c3_moves_preserve_invariants w3 inv_w3 [Cmd.slide 1 0 0 0, Cmd.one 1 0 1]

/-- C6: in a Level with pairwise non-overlapping pieces, `pieceAt`
returns each piece on every cell of its occupied range (row match and
`x ∈ [piece.x, piece.x+size)` for HORIZONTAL, column match and
`y ∈ [piece.y, piece.y+size)` for VERTICAL), and returns empty on every
cell lying in no piece's range. -/
theorem c6_pieceAt_ranges (l : Level)
    (hdisj : l.pieces.Pairwise DisjPieces) :
    (∀ p ∈ l.pieces, ∀ a b : Int, InRangeSpec p a b → l.pieceAt a b = some p) ∧
    (∀ a b : Int, (∀ p ∈ l.pieces, ¬ InRangeSpec p a b) →
      l.pieceAt a b = none) := by
  constructor
  · intro p hp a b hr
    show l.pieces.find? (fun q => occupies q a b) = some p
    exact find?_of_mem_disj l.pieces hdisj p hp a b (inRangeSpec_iff.mp hr)
  · intro a b h
    rw [pieceAt_eq_none_iff]
    intro p hp
    exact occupies_eq_false_iff.mpr (fun hocc => h p hp (inRangeSpec_iff.mpr hocc))

theorem c6_witness :
    Level.pieceAt w3 2 0 = some ⟨'R', 1, 0, Orientation.horizontal, 2⟩ ∧
    Level.pieceAt w3 0 1 = none := by
  have h := c6_pieceAt_ranges w3 (by simp [w3])
  constructor
  · exact h.1 ⟨'R', 1, 0, Orientation.horizontal, 2⟩ (by simp [w3]) 2 0
      (Or.inl ⟨rfl, by decide, by decide, by decide⟩)
  · exact h.2 0 1 (by
      intro p hp
      simp only [w3, List.mem_singleton] at hp
      subst hp
      rw [inRangeSpec_iff]
      decide)

theorem occupies_of_pieceAt {l : Level} {x y : Int} {p : Piece}
    (h : l.pieceAt x y = some p) : occupies p x y = true := by
  have h' : l.pieces.find? (fun q => occupies q x y) = some p := h
  exact @List.find?_some Piece (fun q => occupies q x y) p l.pieces h'

/-- C9: `move` fails with `AxisViolationError`, moving nothing, when a
HORIZONTAL piece is sent to a different row or a VERTICAL piece to a
different column, and fails with `NoPieceError` when the source cell is
empty. -/
theorem c9_axis_and_no_piece (l : Level) (x y toX toY : Int) :
    (∀ p : Piece, l.pieceAt x y = some p →
      p.orientation = Orientation.horizontal → toY ≠ p.y →
      move l x y toX toY = (l, some GErr.axisViolation)) ∧
    (∀ p : Piece, l.pieceAt x y = some p →
      p.orientation = Orientation.vertical → toX ≠ p.x →
      move l x y toX toY = (l, some GErr.axisViolation)) ∧
    (l.pieceAt x y = none → move l x y toX toY = (l, some GErr.noPiece)) := by
  refine ⟨?_, ?_, ?_⟩
  · intro p hfind hor hne
    have hocc : occupies p x y = true := occupies_of_pieceAt hfind
    have hpy : p.y = y := ((occupies_iff_h hor).mp hocc).1
    have hyne : y ≠ toY := by rw [← hpy]; omega
    simp [move, hfind, hor, hyne]
  · intro p hfind hor hne
    have hocc : occupies p x y = true := occupies_of_pieceAt hfind
    have hpx : p.x = x := ((occupies_iff_v hor).mp hocc).1
    have hxne : x ≠ toX := by rw [← hpx]; omega
    simp [move, hfind, hor, hxne]
  · intro hnone
    simp [move, hnone]

theorem c9_witness :
    move exLevel 0 2 5 5 = (exLevel, some GErr.axisViolation) ∧
    move exLevel 2 2 3 3 = (exLevel, some GErr.axisViolation) ∧
    move exLevel 3 4 0 4 = (exLevel, some GErr.noPiece) := by
  refine ⟨?_, ?_, ?_⟩
  · exact (c9_axis_and_no_piece exLevel 0 2 5 5).1
      ⟨'R', 0, 2, Orientation.horizontal, 2⟩ (by decide) rfl (by decide)
  · exact (c9_axis_and_no_piece exLevel 2 2 3 3).2.1
      ⟨'F', 2, 1, Orientation.vertical, 3⟩ (by decide) rfl (by decide)
  · exact (c9_axis_and_no_piece exLevel 3 4 0 4).2.2 (by decide)

/-- C10: every `moveByOne` call mutates at most the located piece's
coordinate along its own axis (by exactly `d`); its other fields, all
other pieces, and the grid size are unchanged, and any throwing call
leaves the Level exactly as it was. -/
theorem c10_moveByOne_frame (l : Level) (x y d : Int) :
    (∀ e : GErr, (moveByOne l x y d).2 = some e → (moveByOne l x y d).1 = l) ∧
    ((moveByOne l x y d).2 = none → ∃ pre p suf,
      l.pieces = pre ++ p :: suf ∧
      (moveByOne l x y d).1.n = l.n ∧
      (moveByOne l x y d).1.pieces = pre ++ shiftBy d p :: suf ∧
      (shiftBy d p).name = p.name ∧
      (shiftBy d p).size = p.size ∧
      (shiftBy d p).orientation = p.orientation ∧
      (p.orientation = Orientation.horizontal →
        (shiftBy d p).x = p.x + d ∧ (shiftBy d p).y = p.y) ∧
      (p.orientation = Orientation.vertical →
        (shiftBy d p).y = p.y + d ∧ (shiftBy d p).x = p.x)) := by
  constructor
  · intro e he
    have hpair : moveByOne l x y d =
        ((moveByOne l x y d).1, (moveByOne l x y d).2) := by
      exact (Prod.mk.eta).symm
    rw [he] at hpair
    exact moveByOne_fst_of_err hpair
  · intro he
    have hpair : moveByOne l x y d =
        ((moveByOne l x y d).1, (moveByOne l x y d).2) := by
      exact (Prod.mk.eta).symm
    rw [he] at hpair
    obtain ⟨hd, pre, p, suf, hps, hpre, hp, hc, hl'⟩ := moveByOne_ok_decomp hpair
    refine ⟨pre, p, suf, hps, ?_, ?_, shiftBy_name d p, shiftBy_size d p,
      shiftBy_orient d p, ?_, ?_⟩
    · rw [hl']
    · rw [hl']
    · intro hor; exact shiftBy_x_h d hor
    · intro hor; exact shiftBy_y_v d hor

theorem c10_witness :
    moveByOne w3 0 0 1 = (w3, some GErr.noPiece) ∧
    (moveByOne w3 1 0 (-1)).1.pieces =
      [⟨'R', 0, 0, Orientation.horizontal, 2⟩] := by
  constructor
  · have h := (c10_moveByOne_frame w3 0 0 1).1 GErr.noPiece (by decide)
    have hpair : moveByOne w3 0 0 1 =
        ((moveByOne w3 0 0 1).1, (moveByOne w3 0 0 1).2) := (Prod.mk.eta).symm
    rw [h] at hpair
    rw [hpair]
    rfl
  · obtain ⟨pre, p, suf, hps, -, hpieces, -, -, -, -, -⟩ :=
      (c10_moveByOne_frame w3 1 0 (-1)).2 (by decide)
    have hnil : pre = [] := by
      rcases pre with _ | ⟨q, rest⟩
      · rfl
      · exfalso
        simp only [w3] at hps
        have hlen := congrArg List.length hps
        simp [List.length_append] at hlen
    subst hnil
    simp only [w3, List.nil_append] at hps
    injection hps with h1 h2
    subst h1
    subst h2
    rw [hpieces]
    try decide

/-- C8 (amended): `move(x,y,x,y)` on a cell occupied by a piece is a
zero-step no-op: it succeeds and leaves every piece of the Level exactly
where it was.  (On an empty cell it throws `NoPieceError`, see the
counterexample.) -/
theorem c8_self_move_noop (l : Level) (x y : Int) (p : Piece)
    (hfind : l.pieceAt x y = some p) :
    move l x y x y = (l, none) := by
  have hocc := occupies_of_pieceAt hfind
  have hsize : 0 < p.size := occupies_size_pos hocc
  cases hp : p.orientation
  · have hred : move l x y x y =
        (match moveSteps x y (-1) (x - x).toNat l with
         | (l1, none) =>
            moveSteps x y 1 (x - (x + (p.size : Int) - 1)).toNat l1
         | (l1, some e) => (l1, some e)) := by
      simp only [move, hfind, hp]
      rw [if_neg (by simp : ¬ y ≠ y)]
    rw [hred, show (x - x).toNat = 0 from by simp]
    show moveSteps x y 1 (x - (x + (p.size : Int) - 1)).toNat l = (l, none)
    rw [Int.toNat_of_nonpos (by omega)]
    rfl
  · have hred : move l x y x y =
        (match moveSteps x y (-1) (y - y).toNat l with
         | (l1, none) =>
            moveSteps x y 1 (y - (y + (p.size : Int) - 1)).toNat l1
         | (l1, some e) => (l1, some e)) := by
      simp only [move, hfind, hp]
      rw [if_neg (by simp : ¬ x ≠ x)]
    rw [hred, show (y - y).toNat = 0 from by simp]
    show moveSteps x y 1 (y - (y + (p.size : Int) - 1)).toNat l = (l, none)
    rw [Int.toNat_of_nonpos (by omega)]
    rfl

theorem c8_witness : move exLevel 0 2 0 2 = (exLevel, none) :=
  c8_self_move_noop exLevel 0 2 ⟨'R', 0, 2, Orientation.horizontal, 2⟩
    (by decide)

/-- C8 counterexample: on the example level the cell `(3,4)` is empty,
and `move(3,4,3,4)` throws `NoPieceError` instead of succeeding, so the
claim's unconditional "never errors for every cell" is false. -/
theorem c8_counterexample :
    Level.pieceAt exLevel 3 4 = none ∧
    move exLevel 3 4 3 4 = (exLevel, some GErr.noPiece) := by
  exact ⟨by decide, by decide⟩

/-- C5: for a valid direction, `moveByOne` fails with `NoPieceError` on
an empty source cell; otherwise it computes the destination cell just
past the piece's edge along its own axis, fails with `BlockedMoveError`
exactly when `canMoveTo` rejects that cell, and otherwise shifts the
piece's origin by exactly one cell in the given direction; and
`canMoveTo(x,y)` holds iff `(x,y)` is in the grid and `pieceAt` is
empty. -/
theorem c5_moveByOne_spec (l : Level) (x y d : Int) (hd : d = 1 ∨ d = -1) :
    (l.pieceAt x y = none → moveByOne l x y d = (l, some GErr.noPiece)) ∧
    (∀ p : Piece, l.pieceAt x y = some p →
      (p.orientation = Orientation.horizontal →
        (l.canMoveTo (if d = -1 then p.x - 1 else p.x + (p.size : Int)) p.y
            = false →
          moveByOne l x y d = (l, some GErr.blocked)) ∧
        (l.canMoveTo (if d = -1 then p.x - 1 else p.x + (p.size : Int)) p.y
            = true →
          ∃ pre suf, l.pieces = pre ++ p :: suf ∧
            (∀ q ∈ pre, occupies q x y = false) ∧
            moveByOne l x y d =
              (⟨l.n, pre ++ { p with x := p.x + d } :: suf⟩, none))) ∧
      (p.orientation = Orientation.vertical →
        (l.canMoveTo p.x (if d = -1 then p.y - 1 else p.y + (p.size : Int))
            = false →
          moveByOne l x y d = (l, some GErr.blocked)) ∧
        (l.canMoveTo p.x (if d = -1 then p.y - 1 else p.y + (p.size : Int))
            = true →
          ∃ pre suf, l.pieces = pre ++ p :: suf ∧
            (∀ q ∈ pre, occupies q x y = false) ∧
            moveByOne l x y d =
              (⟨l.n, pre ++ { p with y := p.y + d } :: suf⟩, none)))) ∧
    (∀ a b : Int, l.canMoveTo a b = true ↔
      0 ≤ a ∧ a < (l.n : Int) ∧ 0 ≤ b ∧ b < (l.n : Int) ∧
        l.pieceAt a b = none) := by
  refine ⟨fun hnone => moveByOne_noPiece hd hnone, ?_,
    fun a b => canMoveTo_iff⟩
  intro p hfind
  obtain ⟨pre, suf, hps, hpre, hp⟩ := pieceAt_decomp hfind
  constructor
  · intro hor
    have hdest : destCell p d =
        (if d = -1 then p.x - 1 else p.x + (p.size : Int), p.y) := by
      simp [destCell, hor]
    constructor
    · intro hc
      apply moveByOne_blocked hd hfind
      rw [hdest]
      exact hc
    · intro hc
      refine ⟨pre, suf, hps, hpre, ?_⟩
      have hc' : l.canMoveTo (destCell p d).1 (destCell p d).2 = true := by
        rw [hdest]; exact hc
      have := moveByOne_ok_of hd hps hpre hp hc'
      rw [this]
      have hshift : shiftBy d p = { p with x := p.x + d } := by
        simp [shiftBy, hor]
      rw [hshift]
  · intro hor
    have hdest : destCell p d =
        (p.x, if d = -1 then p.y - 1 else p.y + (p.size : Int)) := by
      simp [destCell, hor]
    constructor
    · intro hc
      apply moveByOne_blocked hd hfind
      rw [hdest]
      exact hc
    · intro hc
      refine ⟨pre, suf, hps, hpre, ?_⟩
      have hc' : l.canMoveTo (destCell p d).1 (destCell p d).2 = true := by
        rw [hdest]; exact hc
      have := moveByOne_ok_of hd hps hpre hp hc'
      rw [this]
      have hshift : shiftBy d p = { p with y := p.y + d } := by
        simp [shiftBy, hor]
      rw [hshift]

theorem c5_witness :
    moveByOne exLevel 0 2 1 = (exLevel, some GErr.blocked) ∧
    (moveByOne exLevel 1 4 1).2 = none ∧
    (moveByOne exLevel 4 4 (-1)).2 = none ∧
    moveByOne exLevel 3 4 1 = (exLevel, some GErr.noPiece) := by
  refine ⟨?_, ?_, ?_, ?_⟩
  · exact (((c5_moveByOne_spec exLevel 0 2 1 (Or.inl rfl)).2.1
      ⟨'R', 0, 2, Orientation.horizontal, 2⟩ (by decide)).1 rfl).1 (by decide)
  · obtain ⟨pre, suf, -, -, hmv⟩ :=
      (((c5_moveByOne_spec exLevel 1 4 1 (Or.inl rfl)).2.1
        ⟨'Y', 1, 4, Orientation.horizontal, 2⟩ (by decide)).1 rfl).2 (by decide)
    rw [hmv]
  · obtain ⟨pre, suf, -, -, hmv⟩ :=
      (((c5_moveByOne_spec exLevel 4 4 (-1) (Or.inr rfl)).2.1
        ⟨'Z', 4, 4, Orientation.vertical, 2⟩ (by decide)).2 rfl).2 (by decide)
    rw [hmv]
  · exact (c5_moveByOne_spec exLevel 3 4 1 (Or.inl rfl)).1 (by decide)

/-- The direction and number of single steps that `move` attempts for a
piece clicked at `(x, y)` with target `(toX, toY)`, read off the two
loop bounds of the source (`x - toX` steps by `-1`, then
`toX - (x + size - 1)` steps by `+1`; at most one count is positive). -/
def stepPlan (p : Piece) (x y toX toY : Int) : Int × Nat :=
  match p.orientation with
  | Orientation.horizontal =>
    if toX < x then (-1, (x - toX).toNat)
    else (1, (toX - (x + (p.size : Int) - 1)).toNat)
  | Orientation.vertical =>
    if toY < y then (-1, (y - toY).toNat)
    else (1, (toY - (y + (p.size : Int) - 1)).toNat)

/-- If the first `k` of `m` planned steps succeed and the next is
blocked, the whole loop stops there with the blocked error. -/
theorem moveSteps_blocked_at (x y d : Int)
    {l : Level} {k m : Nat} (hkm : k < m)
    (hok : (moveSteps x y d k l).2 = none)
    (hblk : (moveByOne (moveSteps x y d k l).1 x y d).2 = some GErr.blocked) :
    moveSteps x y d m l = ((moveSteps x y d k l).1, some GErr.blocked) := by
  set lk := (moveSteps x y d k l).1 with hlk
  have hfullk : moveSteps x y d k l = (lk, none) := by
    rw [hlk, ← hok]
  have hfull : moveByOne lk x y d =
      ((moveByOne lk x y d).1, some GErr.blocked) := by
    rw [← hblk]
  rw [moveByOne_fst_of_err hfull] at hfull
  have hm : m = k + (m - k - 1 + 1) := by omega
  rw [hm, moveSteps_split x y d k (m - k - 1 + 1) l, hfullk]
  show moveSteps x y d (m - k - 1 + 1) lk = (lk, some GErr.blocked)
  show (match moveByOne lk x y d with
        | (l1, none) => moveSteps x y d (m - k - 1) l1
        | (l1, some e) => (l1, some e)) = _
  rw [hfull]

/-- C2 (amended): if the planned straight-line decomposition of
`move(x,y,toX,toY)` is blocked after exactly `k` successful single
steps, then `move` raises `BlockedMoveError` and the moved piece ends at
its original origin shifted by exactly `k` cells in the direction of
travel, with no rollback.  On the section-8 example grid,
`move(0,2,2,2)` fails with `BlockedMoveError` after exactly zero
successful steps (the first step's destination x=2 is already occupied
by F), leaving R at x=0. -/
theorem c2_blocked_partial_progress :
    (∀ (l : Level) (x y toX toY : Int) (p : Piece) (k : Nat),
      Inv l → l.pieceAt x y = some p →
      (p.orientation = Orientation.horizontal → toY = y) →
      (p.orientation = Orientation.vertical → toX = x) →
      k < (stepPlan p x y toX toY).2 →
      (moveSteps x y (stepPlan p x y toX toY).1 k l).2 = none →
      (moveByOne (moveSteps x y (stepPlan p x y toX toY).1 k l).1 x y
        (stepPlan p x y toX toY).1).2 = some GErr.blocked →
      move l x y toX toY =
        ((moveSteps x y (stepPlan p x y toX toY).1 k l).1,
         some GErr.blocked) ∧
      ∃ pre suf, l.pieces = pre ++ p :: suf ∧
        (moveSteps x y (stepPlan p x y toX toY).1 k l).1 =
          ⟨l.n, pre ++
            shiftBy ((k : Int) * (stepPlan p x y toX toY).1) p :: suf⟩) ∧
    (parse exRows = Except.ok exLevel ∧
     move exLevel 0 2 2 2 = (exLevel, some GErr.blocked) ∧
     Level.pieceAt exLevel 0 2 =
       some ⟨'R', 0, 2, Orientation.horizontal, 2⟩) := by
  constructor
  · intro l x y toX toY p k hinv hfind hh hv hk hok hblk
    obtain ⟨pre, suf, hps, hpre, hp⟩ := pieceAt_decomp hfind
    have hsuf : ∀ q ∈ suf, occupies q x y = false := by
      obtain ⟨-, hpair⟩ := hinv
      rw [hps, List.pairwise_append] at hpair
      have hcons := List.pairwise_cons.mp hpair.2.1
      intro q hq
      exact occupies_eq_false_iff.mpr (fun hqo => hcons.1 q hq x y ⟨hp, hqo⟩)
    cases hor : p.orientation
    · -- horizontal
      have hty : toY = y := hh hor
      by_cases hlt : toX < x
      · have hplan : stepPlan p x y toX toY = (-1, (x - toX).toNat) := by
          simp [stepPlan, hor, hlt]
        rw [hplan] at hk hok hblk ⊢
        simp only at hk hok hblk ⊢
        have hd : (-1 : Int) = 1 ∨ (-1 : Int) = -1 := Or.inr rfl
        have hsteps := moveSteps_blocked_at x y (-1) hk hok hblk
        refine ⟨?_, pre, suf, hps, ?_⟩
        · simp only [move, hfind, hor]
          rw [if_neg (by simp [hty] : ¬ y ≠ toY), hsteps]
        · exact moveSteps_ok_shape x y (-1) hd k l pre suf p hps hpre hsuf
            hp hok
      · have hplan : stepPlan p x y toX toY =
            (1, (toX - (x + (p.size : Int) - 1)).toNat) := by
          simp [stepPlan, hor, hlt]
        rw [hplan] at hk hok hblk ⊢
        simp only at hk hok hblk ⊢
        have hd : (1 : Int) = 1 ∨ (1 : Int) = -1 := Or.inl rfl
        have hsteps := moveSteps_blocked_at x y 1 hk hok hblk
        refine ⟨?_, pre, suf, hps, ?_⟩
        · simp only [move, hfind, hor]
          rw [if_neg (by simp [hty] : ¬ y ≠ toY),
            show (x - toX).toNat = 0 from Int.toNat_of_nonpos (by omega)]
          show moveSteps x y 1 (toX - (x + (p.size : Int) - 1)).toNat l = _
          rw [hsteps]
        · exact moveSteps_ok_shape x y 1 hd k l pre suf p hps hpre hsuf
            hp hok
    · -- vertical
      have htx : toX = x := hv hor
      by_cases hlt : toY < y
      · have hplan : stepPlan p x y toX toY = (-1, (y - toY).toNat) := by
          simp [stepPlan, hor, hlt]
        rw [hplan] at hk hok hblk ⊢
        simp only at hk hok hblk ⊢
        have hd : (-1 : Int) = 1 ∨ (-1 : Int) = -1 := Or.inr rfl
        have hsteps := moveSteps_blocked_at x y (-1) hk hok hblk
        refine ⟨?_, pre, suf, hps, ?_⟩
        · simp only [move, hfind, hor]
          rw [if_neg (by simp [htx] : ¬ x ≠ toX), hsteps]
        · exact moveSteps_ok_shape x y (-1) hd k l pre suf p hps hpre hsuf
            hp hok
      · have hplan : stepPlan p x y toX toY =
            (1, (toY - (y + (p.size : Int) - 1)).toNat) := by
          simp [stepPlan, hor, hlt]
        rw [hplan] at hk hok hblk ⊢
        simp only at hk hok hblk ⊢
        have hd : (1 : Int) = 1 ∨ (1 : Int) = -1 := Or.inl rfl
        have hsteps := moveSteps_blocked_at x y 1 hk hok hblk
        refine ⟨?_, pre, suf, hps, ?_⟩
        · simp only [move, hfind, hor]
          rw [if_neg (by simp [htx] : ¬ x ≠ toX),
            show (y - toY).toNat = 0 from Int.toNat_of_nonpos (by omega)]
          show moveSteps x y 1 (toY - (y + (p.size : Int) - 1)).toNat l = _
          rw [hsteps]
        · exact moveSteps_ok_shape x y 1 hd k l pre suf p hps hpre hsuf
            hp hok
  · refine ⟨by rfl, by decide, by decide⟩

/-- C2 counterexample: on the section-8 grid, `move(0,2,2,2)` raises
`BlockedMoveError` with the level completely unchanged — R is still at
x=0 after zero successful steps, not at x=1 after one. -/
theorem c2_counterexample :
    move exLevel 0 2 2 2 = (exLevel, some GErr.blocked) ∧
    Level.pieceAt exLevel 0 2 =
      some ⟨'R', 0, 2, Orientation.horizontal, 2⟩ ∧
    Level.pieceAt exLevel 1 2 =
      some ⟨'R', 0, 2, Orientation.horizontal, 2⟩ ∧
    (⟨'R', 0, 2, Orientation.horizontal, 2⟩ : Piece).x ≠ 1 := by
  refine ⟨by decide, by decide, by decide, by decide⟩

theorem c2_witness :
    move w3 1 0 (-1) 0 =
      (⟨3, [⟨'R', 0, 0, Orientation.horizontal, 2⟩]⟩, some GErr.blocked) := by
  have h := (c2_blocked_partial_progress.1 w3 1 0 (-1) 0
    ⟨'R', 1, 0, Orientation.horizontal, 2⟩ 1 inv_w3 (by decide)
    (fun _ => rfl) (fun hv => absurd hv (by decide))
    (by decide) (by decide) (by decide)).1
  exact h.trans (by decide)

/-- C1 (amended): in a Level satisfying the invariant, grabbing a piece
at its origin cell and sliding it toward the low side of its axis
(`toX ≤ x` for HORIZONTAL, `toY ≤ y` for VERTICAL) by at most `size`
cells, over cells that are all empty and on the grid, succeeds: the
piece's origin becomes exactly `(toX, p.y)` resp. `(p.x, toY)`, and
`pieceAt` immediately afterwards returns the moved piece on every cell
of its new occupied range.  The original claim's universal form fails
for high-side targets, where `move` can stop short of the target or
abort mid-path with `NoPieceError` even on a fully clear path grabbed
at the origin cell — see the counterexample, which exhibits both
failure modes. -/
theorem c1_low_side_unobstructed_move (l : Level) (x y toX toY : Int)
    (p : Piece) (hinv : Inv l) (hfind : l.pieceAt x y = some p)
    (hh : p.orientation = Orientation.horizontal →
      toY = y ∧ x = p.x ∧ toX ≤ x ∧ x - (p.size : Int) ≤ toX ∧
      ∀ c : Int, toX ≤ c → c < x → l.canMoveTo c y = true)
    (hv : p.orientation = Orientation.vertical →
      toX = x ∧ y = p.y ∧ toY ≤ y ∧ y - (p.size : Int) ≤ toY ∧
      ∀ c : Int, toY ≤ c → c < y → l.canMoveTo x c = true) :
    ∃ pre suf p', l.pieces = pre ++ p :: suf ∧
      move l x y toX toY = (⟨l.n, pre ++ p' :: suf⟩, none) ∧
      p'.name = p.name ∧ p'.size = p.size ∧
      p'.orientation = p.orientation ∧
      (p.orientation = Orientation.horizontal → p'.x = toX ∧ p'.y = p.y) ∧
      (p.orientation = Orientation.vertical → p'.x = p.x ∧ p'.y = toY) ∧
      (∀ a b : Int, occupies p' a b = true →
        (move l x y toX toY).1.pieceAt a b = some p') := by
  obtain ⟨n, ps⟩ := l
  obtain ⟨pre, suf, hps, hpre, hp⟩ := pieceAt_decomp hfind
  dsimp only at hps
  subst hps
  have hcross : ∀ q ∈ pre, DisjPieces q p := by
    obtain ⟨-, hpair⟩ := hinv
    dsimp only at hpair
    rw [List.pairwise_append] at hpair
    intro q hq
    exact hpair.2.2 q hq p (by simp)
  cases hor : p.orientation
  · -- horizontal
    obtain ⟨hty, hxo, h1, h2, hfree⟩ := hh hor
    have hpy : p.y = y := ((occupies_iff_h hor).mp hp).1
    have hsize : 0 < p.size := occupies_size_pos hp
    have hm' : (((x - toX).toNat : Nat) : Int) = x - toX :=
      Int.toNat_of_nonneg (by omega)
    have hkocc : ∀ k : Nat, k < (x - toX).toNat →
        occupies (shiftBy (-(k : Int)) p) x y = true := by
      intro k hkm
      have horient1 : (shiftBy (-(k : Int)) p).orientation =
          Orientation.horizontal := by rw [shiftBy_orient]; exact hor
      rw [occupies_iff_h horient1]
      obtain ⟨hx1, hy1⟩ := shiftBy_x_h (-(k : Int)) hor
      rw [hx1, hy1, shiftBy_size]
      refine ⟨hpy, by omega, by omega⟩
    have hfree' : ∀ c : Int, p.x - (((x - toX).toNat : Nat) : Int) ≤ c →
        c < p.x →
        Level.canMoveTo ⟨n, pre ++ p :: suf⟩ c y = true := by
      intro c hc1 hc2
      exact hfree c (by omega) (by omega)
    have hrun := moveSteps_run_left_h x y (x - toX).toNat n pre suf p
      hpre hor hkocc hfree'
    have hpm : shiftBy (-(((x - toX).toNat : Nat) : Int)) p =
        shiftBy (toX - x) p := by
      rw [show -(((x - toX).toNat : Nat) : Int) = toX - x from by omega]
    have hmove : move ⟨n, pre ++ p :: suf⟩ x y toX toY =
        (⟨n, pre ++ shiftBy (toX - x) p :: suf⟩, none) := by
      simp only [move, hfind, hor]
      rw [if_neg (by simp [hty] : ¬ y ≠ toY), hrun]
      show moveSteps x y 1 (toX - (x + (p.size : Int) - 1)).toNat
          ⟨n, pre ++ shiftBy (-(((x - toX).toNat : Nat) : Int)) p :: suf⟩ = _
      rw [show (toX - (x + (p.size : Int) - 1)).toNat = 0 from
        Int.toNat_of_nonpos
          (show toX - (x + (p.size : Int) - 1) ≤ 0 by omega), hpm]
      rfl
    refine ⟨pre, suf, shiftBy (toX - x) p, rfl, hmove,
      shiftBy_name _ p, shiftBy_size _ p, (shiftBy_orient _ p).trans hor,
      ?_, ?_, ?_⟩
    · intro _
      obtain ⟨hx1, hy1⟩ := shiftBy_x_h (toX - x) hor
      exact ⟨by omega, hy1⟩
    · exact fun hver => absurd hver (by decide)
    · intro a b hocc'
      have horient1 : (shiftBy (toX - x) p).orientation =
          Orientation.horizontal := by rw [shiftBy_orient]; exact hor
      have hdet := (occupies_iff_h horient1).mp hocc'
      obtain ⟨hx1, hy1⟩ := shiftBy_x_h (toX - x) hor
      rw [hx1, hy1, shiftBy_size] at hdet
      have hb : b = y := by omega
      have hprefree : ∀ q ∈ pre, occupies q a b = false := by
        intro q hq
        by_cases hax : a < x
        · have hcmv := hfree a (by omega) hax
          have hnone := (canMoveTo_iff.mp hcmv).2.2.2.2
          have := pieceAt_eq_none_iff.mp hnone q (by simp [hq])
          rw [hb]
          exact this
        · have hpab : occupies p a b = true := by
            rw [occupies_iff_h hor]
            refine ⟨by omega, by omega, by omega⟩
          exact occupies_eq_false_iff.mpr
            (fun hqo => hcross q hq a b ⟨hqo, hpab⟩)
      rw [hmove]
      exact pieceAt_of_decomp hprefree hocc'
  · -- vertical
    obtain ⟨htx, hxo, h1, h2, hfree⟩ := hv hor
    have hpx : p.x = x := ((occupies_iff_v hor).mp hp).1
    have hsize : 0 < p.size := occupies_size_pos hp
    have hm' : (((y - toY).toNat : Nat) : Int) = y - toY :=
      Int.toNat_of_nonneg (by omega)
    have hkocc : ∀ k : Nat, k < (y - toY).toNat →
        occupies (shiftBy (-(k : Int)) p) x y = true := by
      intro k hkm
      have horient1 : (shiftBy (-(k : Int)) p).orientation =
          Orientation.vertical := by rw [shiftBy_orient]; exact hor
      rw [occupies_iff_v horient1]
      obtain ⟨hy1, hx1⟩ := shiftBy_y_v (-(k : Int)) hor
      rw [hx1, hy1, shiftBy_size]
      refine ⟨hpx, by omega, by omega⟩
    have hfree' : ∀ c : Int, p.y - (((y - toY).toNat : Nat) : Int) ≤ c →
        c < p.y →
        Level.canMoveTo ⟨n, pre ++ p :: suf⟩ x c = true := by
      intro c hc1 hc2
      exact hfree c (by omega) (by omega)
    have hrun := moveSteps_run_left_v x y (y - toY).toNat n pre suf p
      hpre hor hkocc hfree'
    have hpm : shiftBy (-(((y - toY).toNat : Nat) : Int)) p =
        shiftBy (toY - y) p := by
      rw [show -(((y - toY).toNat : Nat) : Int) = toY - y from by omega]
    have hmove : move ⟨n, pre ++ p :: suf⟩ x y toX toY =
        (⟨n, pre ++ shiftBy (toY - y) p :: suf⟩, none) := by
      simp only [move, hfind, hor]
      rw [if_neg (by simp [htx] : ¬ x ≠ toX), hrun]
      show moveSteps x y 1 (toY - (y + (p.size : Int) - 1)).toNat
          ⟨n, pre ++ shiftBy (-(((y - toY).toNat : Nat) : Int)) p :: suf⟩ = _
      rw [show (toY - (y + (p.size : Int) - 1)).toNat = 0 from
        Int.toNat_of_nonpos
          (show toY - (y + (p.size : Int) - 1) ≤ 0 by omega), hpm]
      rfl
    refine ⟨pre, suf, shiftBy (toY - y) p, rfl, hmove,
      shiftBy_name _ p, shiftBy_size _ p, (shiftBy_orient _ p).trans hor,
      ?_, ?_, ?_⟩
    · exact fun hhor => absurd hhor (by decide)
    · intro _
      obtain ⟨hy1, hx1⟩ := shiftBy_y_v (toY - y) hor
      exact ⟨hx1, by omega⟩
    · intro a b hocc'
      have horient1 : (shiftBy (toY - y) p).orientation =
          Orientation.vertical := by rw [shiftBy_orient]; exact hor
      have hdet := (occupies_iff_v horient1).mp hocc'
      obtain ⟨hy1, hx1⟩ := shiftBy_y_v (toY - y) hor
      rw [hx1, hy1, shiftBy_size] at hdet
      have ha : a = x := by omega
      have hprefree : ∀ q ∈ pre, occupies q a b = false := by
        intro q hq
        by_cases hby : b < y
        · have hcmv := hfree b (by omega) hby
          have hnone := (canMoveTo_iff.mp hcmv).2.2.2.2
          have := pieceAt_eq_none_iff.mp hnone q (by simp [hq])
          rw [ha]
          exact this
        · have hpab : occupies p a b = true := by
            rw [occupies_iff_v hor]
            refine ⟨by omega, by omega, by omega⟩
          exact occupies_eq_false_iff.mpr
            (fun hqo => hcross q hq a b ⟨hqo, hpab⟩)
      rw [hmove]
      exact pieceAt_of_decomp hprefree hocc'

/-- C1 counterexample, refuting the claim's universal statement for
high-side paths in both of its failure modes.  First: in the 3×3 level
`RR. / ... / ...` the rightward path from the grab cell (0,0) to the
target (2,0) is fully unobstructed (cell (2,0) is on the grid and
empty), yet `move(0,0,2,0)` succeeds with the piece's origin at x = 1,
not at toX = 2.  Second: in the 4×4 level with the same piece, the
origin-cell grab `move(0,0,3,0)` over the fully unobstructed path
through (2,0) and (3,0) aborts with `NoPieceError` after one step —
the loop re-grabs the constant cell (0,0), which the piece has vacated
— leaving the origin at x = 1, its leading edge at 2, short of the
target 3. -/
theorem c1_counterexample :
    Level.canMoveTo ⟨3, [⟨'R', 0, 0, Orientation.horizontal, 2⟩]⟩ 2 0
      = true ∧
    move ⟨3, [⟨'R', 0, 0, Orientation.horizontal, 2⟩]⟩ 0 0 2 0 =
      (⟨3, [⟨'R', 1, 0, Orientation.horizontal, 2⟩]⟩, none) ∧
    (1 : Int) ≠ 2 ∧
    Level.canMoveTo ⟨4, [⟨'R', 0, 0, Orientation.horizontal, 2⟩]⟩ 2 0
      = true ∧
    Level.canMoveTo ⟨4, [⟨'R', 0, 0, Orientation.horizontal, 2⟩]⟩ 3 0
      = true ∧
    move ⟨4, [⟨'R', 0, 0, Orientation.horizontal, 2⟩]⟩ 0 0 3 0 =
      (⟨4, [⟨'R', 1, 0, Orientation.horizontal, 2⟩]⟩,
       some GErr.noPiece) := by
  refine ⟨by decide, by decide, by decide, by decide, by decide, by decide⟩

theorem c1_witness :
    (move w3 1 0 0 0).2 = none ∧
    Level.pieceAt (move w3 1 0 0 0).1 0 0 =
      some ⟨'R', 0, 0, Orientation.horizontal, 2⟩ := by
  obtain ⟨pre, suf, p', hps, hmove, hname, hsize, horient, hhx, hvx, hocc⟩ :=
    c1_low_side_unobstructed_move w3 1 0 0 0
      ⟨'R', 1, 0, Orientation.horizontal, 2⟩ inv_w3 (by decide)
      (fun _ => ⟨rfl, rfl, by decide, by decide, by
        intro c hc1 hc2
        have : c = 0 := by omega
        subst this
        decide⟩)
      (fun hver => absurd hver (by decide))
  have hx := hhx rfl
  dsimp only at hname hsize horient hx
  constructor
  · rw [hmove]
  · have hocc' : occupies p' 0 0 = true := by
      rw [occupies_iff_h horient]
      rw [hx.1, hx.2, hsize]
      refine ⟨rfl, by omega, by omega⟩
    have hres := hocc 0 0 hocc'
    rw [hres]
    obtain ⟨hx1, hx2⟩ := hx
    obtain ⟨pn, px, py, po, psz⟩ := p'
    dsimp only at hname hsize horient hx1 hx2
    subst hname
    subst hsize
    subst horient
    subst hx1
    subst hx2
    rfl

/-! ### A flat view of the parser's scan -/

/-- The cells of one row, with their coordinates, in scan order. -/
def rowCells (cy cx : Int) : List Char → List (Char × Int × Int)
  | [] => []
  | c :: rest => (c, cx, cy) :: rowCells cy (cx + 1) rest

/-- All cells of the grid in row-major scan order. -/
def cellsList (cy : Int) : List (List Char) → List (Char × Int × Int)
  | [] => []
  | r :: rest => rowCells cy 0 r ++ cellsList (cy + 1) rest

/-- The parser's scan over a flat cell stream. -/
def scanCells (seen : List Piece) :
    List (Char × Int × Int) → Except FormatErr (List Piece)
  | [] => Except.ok seen
  | t :: rest =>
    if t.1 = '.' then scanCells seen rest
    else
      match extendSeen t.1 t.2.1 t.2.2 seen with
      | Except.ok seen' => scanCells seen' rest
      | Except.error e => Except.error e

theorem parseCells_eq_scan (cy : Int) :
    ∀ (row : List Char) (cx : Int) (seen : List Piece),
      parseCells cy cx seen row = scanCells seen (rowCells cy cx row) := by
  intro row
  induction row with
  | nil => intro cx seen; rfl
  | cons c rest ih =>
    intro cx seen
    show parseCells cy cx seen (c :: rest) =
      scanCells seen ((c, cx, cy) :: rowCells cy (cx + 1) rest)
    by_cases hdot : c = '.'
    · simp only [parseCells, scanCells, hdot, if_pos]
      exact ih (cx + 1) seen
    · simp only [parseCells, scanCells, if_neg hdot]
      cases hext : extendSeen c cx cy seen with
      | ok seen' => exact ih (cx + 1) seen'
      | error e => rfl

theorem scanCells_append :
    ∀ (a b : List (Char × Int × Int)) (seen : List Piece),
      scanCells seen (a ++ b) =
        match scanCells seen a with
        | Except.ok s => scanCells s b
        | Except.error e => Except.error e := by
  intro a
  induction a with
  | nil => intro b seen; rfl
  | cons t rest ih =>
    intro b seen
    show scanCells seen (t :: (rest ++ b)) = _
    by_cases hdot : t.1 = '.'
    · simp only [scanCells, hdot, if_pos]
      exact ih b seen
    · simp only [scanCells, if_neg hdot]
      cases hext : extendSeen t.1 t.2.1 t.2.2 seen with
      | ok seen' => exact ih b seen'
      | error e => rfl

theorem parseRows_eq_scan :
    ∀ (rows : List (List Char)) (n : Nat) (cy : Int) (seen : List Piece),
      (∀ r ∈ rows, r.length = n) →
      parseRows n cy seen rows = scanCells seen (cellsList cy rows) := by
  intro rows
  induction rows with
  | nil => intro n cy seen _; rfl
  | cons row rest ih =>
    intro n cy seen hsq
    have hrow : row.length = n := hsq row (by simp)
    show parseRows n cy seen (row :: rest) =
      scanCells seen (rowCells cy 0 row ++ cellsList (cy + 1) rest)
    simp only [parseRows, hrow, if_neg (by omega : ¬ n ≠ n)]
    rw [scanCells_append, parseCells_eq_scan]
    cases hsc : scanCells seen (rowCells cy 0 row) with
    | ok seen' => exact ih n (cy + 1) seen' (fun r hr => hsq r (by simp [hr]))
    | error e => rfl

theorem parseRows_err_of_nonsquare :
    ∀ (rows : List (List Char)) (n : Nat) (cy : Int) (seen : List Piece),
      (∃ r ∈ rows, r.length ≠ n) →
      ∃ e, parseRows n cy seen rows = Except.error e := by
  intro rows
  induction rows with
  | nil =>
    rintro n cy seen ⟨r, hr, -⟩
    cases hr
  | cons row rest ih =>
    rintro n cy seen ⟨r, hr, hlen⟩
    by_cases hrow : row.length ≠ n
    · exact ⟨FormatErr.nonSquare, by simp [parseRows, hrow]⟩
    · have hrn : row.length = n := by omega
      rcases List.mem_cons.mp hr with h | h
      · subst h; exact absurd hlen (by omega)
      · cases hpc : parseCells cy 0 seen row with
        | ok seen' =>
          obtain ⟨e, he⟩ := ih n (cy + 1) seen' ⟨r, h, hlen⟩
          refine ⟨e, ?_⟩
          simp only [parseRows, if_neg hrow, hpc]
          exact he
        | error e =>
          refine ⟨e, ?_⟩
          simp only [parseRows, if_neg hrow, hpc]

/-! ### Name and coordinate tracking through the scan -/

theorem extendSeen_err :
    ∀ (seen : List Piece) (c : Char) (cx cy : Int) (e : FormatErr),
      extendSeen c cx cy seen = Except.error e → e = FormatErr.nonStraight := by
  intro seen
  induction seen with
  | nil => intro c cx cy e h; cases h
  | cons p rest ih =>
    intro c cx cy e h
    by_cases hname : p.name = c
    · simp only [extendSeen, if_pos hname] at h
      by_cases h1 : cy = p.y
      · rw [if_pos h1] at h; cases h
      · rw [if_neg h1] at h
        by_cases h2 : cx = p.x
        · rw [if_pos h2] at h; cases h
        · rw [if_neg h2] at h
          injection h with h
          exact h.symm
    · simp only [extendSeen, if_neg hname] at h
      cases hext : extendSeen c cx cy rest with
      | ok rest' => rw [hext] at h; cases h
      | error e' =>
        rw [hext] at h
        injection h with h
        subst h
        exact ih c cx cy e' hext

/-- A successful `extendSeen` either keeps an entry's name and origin,
or appends a fresh entry with the scanned cell as origin. -/
theorem extendSeen_entries :
    ∀ (seen seen' : List Piece) (c : Char) (cx cy : Int),
      extendSeen c cx cy seen = Except.ok seen' →
      ∀ q ∈ seen',
        (∃ p ∈ seen, p.name = q.name ∧ p.x = q.x ∧ p.y = q.y) ∨
        (q.name = c ∧ q.x = cx ∧ q.y = cy ∧ ∀ p ∈ seen, p.name ≠ c) := by
  intro seen
  induction seen with
  | nil =>
    intro seen' c cx cy h q hq
    simp only [extendSeen] at h
    injection h with h
    subst h
    simp only [List.mem_singleton] at hq
    subst hq
    exact Or.inr ⟨rfl, rfl, rfl, by simp⟩
  | cons p rest ih =>
    intro seen' c cx cy h q hq
    by_cases hname : p.name = c
    · simp only [extendSeen, if_pos hname] at h
      by_cases h1 : cy = p.y
      · rw [if_pos h1] at h
        injection h with h
        subst h
        rcases List.mem_cons.mp hq with hq | hq
        · subst hq; exact Or.inl ⟨p, by simp, rfl, rfl, rfl⟩
        · exact Or.inl ⟨q, by simp [hq], rfl, rfl, rfl⟩
      · rw [if_neg h1] at h
        by_cases h2 : cx = p.x
        · rw [if_pos h2] at h
          injection h with h
          subst h
          rcases List.mem_cons.mp hq with hq | hq
          · subst hq; exact Or.inl ⟨p, by simp, rfl, rfl, rfl⟩
          · exact Or.inl ⟨q, by simp [hq], rfl, rfl, rfl⟩
        · rw [if_neg h2] at h; cases h
    · simp only [extendSeen, if_neg hname] at h
      cases hext : extendSeen c cx cy rest with
      | ok rest' =>
        rw [hext] at h
        injection h with h
        subst h
        rcases List.mem_cons.mp hq with hq | hq
        · subst hq; exact Or.inl ⟨q, by simp, rfl, rfl, rfl⟩
        · rcases ih rest' c cx cy hext q hq with ⟨p', hp', he⟩ | hnew
          · exact Or.inl ⟨p', by simp [hp'], he⟩
          · refine Or.inr ⟨hnew.1, hnew.2.1, hnew.2.2.1, ?_⟩
            intro p' hp'
            rcases List.mem_cons.mp hp' with hp' | hp'
            · subst hp'; exact hname
            · exact hnew.2.2.2 p' hp'
      | error e => rw [hext] at h; cases h

/-- A successful `extendSeen` keeps every existing name and records `c`. -/
theorem extendSeen_names :
    ∀ (seen seen' : List Piece) (c : Char) (cx cy : Int),
      extendSeen c cx cy seen = Except.ok seen' →
      (∀ p ∈ seen, ∃ q ∈ seen', q.name = p.name) ∧
      (∃ q ∈ seen', q.name = c) := by
  intro seen
  induction seen with
  | nil =>
    intro seen' c cx cy h
    simp only [extendSeen] at h
    injection h with h
    subst h
    exact ⟨by simp, ⟨{ name := c, x := cx, y := cy,
                       orientation := Orientation.horizontal, size := 1 },
      by simp, rfl⟩⟩
  | cons p rest ih =>
    intro seen' c cx cy h
    by_cases hname : p.name = c
    · simp only [extendSeen, if_pos hname] at h
      by_cases h1 : cy = p.y
      · rw [if_pos h1] at h
        injection h with h
        subst h
        constructor
        · intro r hr
          rcases List.mem_cons.mp hr with hr | hr
          · subst hr
            exact ⟨{ r with
                     size := r.size + 1,
                     orientation := Orientation.horizontal }, by simp, rfl⟩
          · exact ⟨r, by simp [hr], rfl⟩
        · exact ⟨{ p with
                   size := p.size + 1,
                   orientation := Orientation.horizontal }, by simp, hname⟩
      · rw [if_neg h1] at h
        by_cases h2 : cx = p.x
        · rw [if_pos h2] at h
          injection h with h
          subst h
          constructor
          · intro r hr
            rcases List.mem_cons.mp hr with hr | hr
            · subst hr
              exact ⟨{ r with
                       size := r.size + 1,
                       orientation := Orientation.vertical }, by simp, rfl⟩
            · exact ⟨r, by simp [hr], rfl⟩
          · exact ⟨{ p with
                     size := p.size + 1,
                     orientation := Orientation.vertical }, by simp, hname⟩
        · rw [if_neg h2] at h; cases h
    · simp only [extendSeen, if_neg hname] at h
      cases hext : extendSeen c cx cy rest with
      | ok rest' =>
        rw [hext] at h
        injection h with h
        subst h
        obtain ⟨hkeep, hc⟩ := ih rest' c cx cy hext
        constructor
        · intro p' hp'
          rcases List.mem_cons.mp hp' with hp' | hp'
          · subst hp'; exact ⟨p', by simp, rfl⟩
          · obtain ⟨q, hq, hqn⟩ := hkeep p' hp'
            exact ⟨q, by simp [hq], hqn⟩
        · obtain ⟨q, hq, hqn⟩ := hc
          exact ⟨q, by simp [hq], hqn⟩
      | error e => rw [hext] at h; cases h

/-- When every existing entry named `c` sits at `(x0, y0)` and the new
cell shares neither coordinate, `extendSeen` rejects. -/
theorem extendSeen_err_of_offaxis :
    ∀ (seen : List Piece) (c : Char) (cx cy x0 y0 : Int),
      (∃ p ∈ seen, p.name = c) →
      (∀ p ∈ seen, p.name = c → p.x = x0 ∧ p.y = y0) →
      cx ≠ x0 → cy ≠ y0 →
      extendSeen c cx cy seen = Except.error FormatErr.nonStraight := by
  intro seen
  induction seen with
  | nil =>
    rintro c cx cy x0 y0 ⟨p, hp, -⟩
    cases hp
  | cons p rest ih =>
    rintro c cx cy x0 y0 ⟨p', hp', hp'name⟩ hcoords hnx hny
    by_cases hname : p.name = c
    · obtain ⟨hx0, hy0⟩ := hcoords p (by simp) hname
      simp only [extendSeen, if_pos hname]
      rw [if_neg (by omega : ¬ cy = p.y), if_neg (by omega : ¬ cx = p.x)]
    · simp only [extendSeen, if_neg hname]
      have hp'rest : p' ∈ rest := by
        rcases List.mem_cons.mp hp' with h | h
        · subst h; exact absurd hp'name hname
        · exact h
      rw [ih c cx cy x0 y0 ⟨p', hp'rest, hp'name⟩
        (fun q hq hqn => hcoords q (by simp [hq]) hqn) hnx hny]

theorem scanCells_err :
    ∀ (cells : List (Char × Int × Int)) (seen : List Piece) (e : FormatErr),
      scanCells seen cells = Except.error e → e = FormatErr.nonStraight := by
  intro cells
  induction cells with
  | nil =>
    intro seen e h
    rw [show scanCells seen [] = Except.ok seen from rfl] at h
    cases h
  | cons t rest ih =>
    intro seen e h
    by_cases hdot : t.1 = '.'
    · simp only [scanCells, if_pos hdot] at h
      exact ih seen e h
    · simp only [scanCells, if_neg hdot] at h
      cases hext : extendSeen t.1 t.2.1 t.2.2 seen with
      | ok seen' =>
        rw [hext] at h
        exact ih seen' e h
      | error e' =>
        rw [hext] at h
        injection h with h
        rw [← h]
        exact extendSeen_err seen t.1 t.2.1 t.2.2 e' hext

theorem scanCells_persist :
    ∀ (cells : List (Char × Int × Int)) (seen out : List Piece) (nm : Char),
      scanCells seen cells = Except.ok out →
      (∃ p ∈ seen, p.name = nm) → ∃ q ∈ out, q.name = nm := by
  intro cells
  induction cells with
  | nil =>
    intro seen out nm h hex
    rw [show scanCells seen [] = Except.ok seen from rfl] at h
    injection h with h
    subst h
    exact hex
  | cons t rest ih =>
    intro seen out nm h hex
    by_cases hdot : t.1 = '.'
    · simp only [scanCells, if_pos hdot] at h
      exact ih seen out nm h hex
    · simp only [scanCells, if_neg hdot] at h
      cases hext : extendSeen t.1 t.2.1 t.2.2 seen with
      | ok seen' =>
        rw [hext] at h
        obtain ⟨p, hp, hpn⟩ := hex
        obtain ⟨q, hq, hqn⟩ :=
          (extendSeen_names seen seen' t.1 t.2.1 t.2.2 hext).1 p hp
        exact ih seen' out nm h ⟨q, hq, hqn.trans hpn⟩
      | error e => rw [hext] at h; cases h

theorem scanCells_names_from :
    ∀ (cells : List (Char × Int × Int)) (seen out : List Piece),
      scanCells seen cells = Except.ok out →
      ∀ q ∈ out, (∃ p ∈ seen, p.name = q.name) ∨
        ∃ t ∈ cells, t.1 = q.name := by
  intro cells
  induction cells with
  | nil =>
    intro seen out h q hq
    rw [show scanCells seen [] = Except.ok seen from rfl] at h
    injection h with h
    subst h
    exact Or.inl ⟨q, hq, rfl⟩
  | cons t rest ih =>
    intro seen out h q hq
    by_cases hdot : t.1 = '.'
    · simp only [scanCells, if_pos hdot] at h
      rcases ih seen out h q hq with hl | ⟨s, hs, hsn⟩
      · exact Or.inl hl
      · exact Or.inr ⟨s, by simp [hs], hsn⟩
    · simp only [scanCells, if_neg hdot] at h
      cases hext : extendSeen t.1 t.2.1 t.2.2 seen with
      | ok seen' =>
        rw [hext] at h
        rcases ih seen' out h q hq with ⟨p, hp, hpn⟩ | ⟨s, hs, hsn⟩
        · rcases extendSeen_entries seen seen' t.1 t.2.1 t.2.2 hext p hp with
            ⟨p0, hp0, hp0n, -, -⟩ | ⟨hnew, -⟩
          · exact Or.inl ⟨p0, hp0, hp0n.trans hpn⟩
          · exact Or.inr ⟨t, by simp, hnew.symm.trans hpn⟩
        · exact Or.inr ⟨s, by simp [hs], hsn⟩
      | error e => rw [hext] at h; cases h

theorem scanCells_records :
    ∀ (cells : List (Char × Int × Int)) (seen out : List Piece),
      scanCells seen cells = Except.ok out →
      ∀ t ∈ cells, t.1 ≠ '.' → ∃ q ∈ out, q.name = t.1 := by
  intro cells
  induction cells with
  | nil =>
    intro seen out h t ht
    cases ht
  | cons s rest ih =>
    intro seen out h t ht htdot
    by_cases hdot : s.1 = '.'
    · simp only [scanCells, if_pos hdot] at h
      rcases List.mem_cons.mp ht with hts | hts
      · subst hts; exact absurd hdot htdot
      · exact ih seen out h t hts htdot
    · simp only [scanCells, if_neg hdot] at h
      cases hext : extendSeen s.1 s.2.1 s.2.2 seen with
      | ok seen' =>
        rw [hext] at h
        rcases List.mem_cons.mp ht with hts | hts
        · subst hts
          exact scanCells_persist rest seen' out t.1 h
            (extendSeen_names seen seen' t.1 t.2.1 t.2.2 hext).2
        · exact ih seen' out h t hts htdot
      | error e => rw [hext] at h; cases h

theorem rowCells_chars (cy : Int) :
    ∀ (row : List Char) (cx : Int) (t : Char × Int × Int),
      t ∈ rowCells cy cx row → t.1 ∈ row := by
  intro row
  induction row with
  | nil => intro cx t ht; cases ht
  | cons c rest ih =>
    intro cx t ht
    rcases List.mem_cons.mp ht with h | h
    · subst h; simp
    · exact List.mem_cons.mpr (Or.inr (ih (cx + 1) t h))

theorem cellsList_chars :
    ∀ (rows : List (List Char)) (cy : Int) (t : Char × Int × Int),
      t ∈ cellsList cy rows → ∃ r ∈ rows, t.1 ∈ r := by
  intro rows
  induction rows with
  | nil => intro cy t ht; cases ht
  | cons row rest ih =>
    intro cy t ht
    rcases List.mem_append.mp ht with h | h
    · exact ⟨row, by simp, rowCells_chars cy row 0 t h⟩
    · obtain ⟨r, hr, hc⟩ := ih (cy + 1) t h
      exact ⟨r, by simp [hr], hc⟩

theorem rowCells_of_char (cy : Int) :
    ∀ (row : List Char) (cx : Int) (c : Char),
      c ∈ row → ∃ t ∈ rowCells cy cx row, t.1 = c := by
  intro row
  induction row with
  | nil => intro cx c hc; cases hc
  | cons c0 rest ih =>
    intro cx c hc
    rcases List.mem_cons.mp hc with h | h
    · subst h; exact ⟨(c, cx, cy), by simp [rowCells], rfl⟩
    · obtain ⟨t, ht, htc⟩ := ih (cx + 1) c h
      exact ⟨t, by simp [rowCells, ht], htc⟩

theorem cellsList_of_char :
    ∀ (rows : List (List Char)) (cy : Int) (c : Char),
      (∃ r ∈ rows, c ∈ r) → ∃ t ∈ cellsList cy rows, t.1 = c := by
  intro rows
  induction rows with
  | nil =>
    rintro cy c ⟨r, hr, -⟩
    cases hr
  | cons row rest ih =>
    rintro cy c ⟨r, hr, hc⟩
    rcases List.mem_cons.mp hr with h | h
    · have hc' : c ∈ row := by rw [← h]; exact hc
      obtain ⟨t, ht, htc⟩ := rowCells_of_char cy row 0 c hc'
      exact ⟨t, by simp only [cellsList, List.mem_append]; exact Or.inl ht,
        htc⟩
    · obtain ⟨t, ht, htc⟩ := ih (cy + 1) c ⟨r, h, hc⟩
      exact ⟨t, by simp only [cellsList, List.mem_append]; exact Or.inr ht,
        htc⟩

theorem find?_append_of_some {α : Type} (f : α → Bool) {l1 : List α}
    (l2 : List α) {v : α} (h : l1.find? f = some v) :
    (l1 ++ l2).find? f = some v := by
  rw [List.find?_append, h]
  rfl

/-- Scanning a cell stream that still contains a cell lying on neither
axis of its character's first occurrence must fail, given that the
`seen` table reflects the already-processed prefix `done`. -/
theorem scanCells_err_of_offaxis :
    ∀ (rem done : List (Char × Int × Int)) (seen : List Piece)
      (t0 t : Char × Int × Int),
      (∀ p ∈ seen,
        done.find? (fun s => s.1 = p.name) = some (p.name, p.x, p.y)) →
      (∀ s ∈ done, s.1 ≠ '.' → ∃ p ∈ seen, p.name = s.1) →
      (done ++ rem).find? (fun s => s.1 = t0.1) = some t0 →
      t ∈ rem → t.1 = t0.1 → t0.1 ≠ '.' →
      t.2.1 ≠ t0.2.1 → t.2.2 ≠ t0.2.2 →
      ∃ e, scanCells seen rem = Except.error e := by
  intro rem
  induction rem with
  | nil =>
    intro done seen t0 t _ _ _ ht
    cases ht
  | cons s rest ih =>
    intro done seen t0 t h1 h2 hfind ht htc htdot hnx hny
    by_cases hts : t = s
    · -- the head cell is the off-axis occurrence: the table already
      -- holds an entry for its character at the first occurrence's
      -- origin, so extendSeen rejects it
      subst hts
      have hsdot : t.1 ≠ '.' := by rw [htc]; exact htdot
      have hdone : done.find? (fun s => s.1 = t0.1) = some t0 := by
        cases hdf : done.find? (fun s => s.1 = t0.1) with
        | some u =>
          rw [find?_append_of_some _ (t :: rest) hdf] at hfind
          injection hfind with hfind
          exact congrArg some hfind
        | none =>
          exfalso
          rw [List.find?_append, hdf] at hfind
          have hfind' : List.find? (fun s => decide (s.1 = t0.1))
              (t :: rest) = some t0 := hfind
          rw [List.find?_cons_of_pos rest (by simp [htc])] at hfind'
          injection hfind' with hfind'
          exact hnx (by rw [hfind'])
      have ht0mem : t0 ∈ done := List.mem_of_find?_eq_some hdone
      obtain ⟨p, hp, hpn⟩ := h2 t0 ht0mem htdot
      have hcoords : ∀ q ∈ seen, q.name = t.1 → q.x = t0.2.1 ∧
          q.y = t0.2.2 := by
        intro q hq hqn
        have hthis := h1 q hq
        have hkey : q.name = t0.1 := hqn.trans htc
        rw [hkey] at hthis
        have heq := hdone.symm.trans hthis
        injection heq with heq
        have hxq := congrArg (fun u : Char × Int × Int => u.2.1) heq
        have hyq := congrArg (fun u : Char × Int × Int => u.2.2) heq
        exact ⟨hxq.symm, hyq.symm⟩
      have hex : ∃ q ∈ seen, q.name = t.1 := ⟨p, hp, by rw [hpn, htc]⟩
      refine ⟨FormatErr.nonStraight, ?_⟩
      simp only [scanCells, if_neg hsdot]
      rw [extendSeen_err_of_offaxis seen t.1 t.2.1 t.2.2 t0.2.1 t0.2.2
        hex hcoords hnx hny]
    · -- the head cell is some other cell: process it and recurse
      have htrest : t ∈ rest := by
        rcases List.mem_cons.mp ht with h | h
        · exact absurd h hts
        · exact h
      have hassoc : (done ++ [s]) ++ rest = done ++ s :: rest := by
        simp
      by_cases hdot : s.1 = '.'
      · have hinv1 : ∀ p ∈ seen, (done ++ [s]).find?
            (fun u => u.1 = p.name) = some (p.name, p.x, p.y) := by
          intro p hp
          exact find?_append_of_some _ [s] (h1 p hp)
        have hinv2 : ∀ u ∈ done ++ [s], u.1 ≠ '.' →
            ∃ p ∈ seen, p.name = u.1 := by
          intro u hu hud
          rcases List.mem_append.mp hu with hu | hu
          · exact h2 u hu hud
          · simp only [List.mem_singleton] at hu
            subst hu
            exact absurd hdot hud
        obtain ⟨e, he⟩ := ih (done ++ [s]) seen t0 t hinv1 hinv2
          (by rw [hassoc]; exact hfind) htrest htc htdot hnx hny
        exact ⟨e, by simp only [scanCells, if_pos hdot]; exact he⟩
      · cases hext : extendSeen s.1 s.2.1 s.2.2 seen with
        | error e =>
          exact ⟨e, by simp only [scanCells, if_neg hdot, hext]⟩
        | ok seen' =>
          have hinv1 : ∀ q ∈ seen', (done ++ [s]).find?
              (fun u => u.1 = q.name) = some (q.name, q.x, q.y) := by
            intro q hq
            rcases extendSeen_entries seen seen' s.1 s.2.1 s.2.2 hext q hq
              with ⟨p, hp, hpn, hpx, hpy⟩ | ⟨hqn, hqx, hqy, hfresh⟩
            · have hfd := h1 p hp
              rw [hpn, hpx, hpy] at hfd
              exact find?_append_of_some _ [s] hfd
            · have hdnone : done.find? (fun u => u.1 = q.name) = none := by
                rw [List.find?_eq_none]
                intro u hu
                simp only [decide_eq_true_eq]
                intro huq
                have hud : u.1 ≠ '.' := by
                  rw [huq, hqn]; exact hdot
                obtain ⟨p, hp, hpn⟩ := h2 u hu hud
                exact hfresh p hp (by rw [hpn, huq, hqn])
              rw [List.find?_append, hdnone]
              have hone : List.find? (fun u => decide (u.1 = q.name)) [s]
                  = some s :=
                List.find?_cons_of_pos [] (by simp [hqn])
              have : (Option.none).or (List.find?
                  (fun u => decide (u.1 = q.name)) [s]) = some s := by
                rw [hone]
                rfl
              rw [this, hqn, hqx, hqy]
          have hinv2 : ∀ u ∈ done ++ [s], u.1 ≠ '.' →
              ∃ q ∈ seen', q.name = u.1 := by
            intro u hu hud
            rcases List.mem_append.mp hu with hu | hu
            · obtain ⟨p, hp, hpn⟩ := h2 u hu hud
              obtain ⟨q, hq, hqn⟩ :=
                (extendSeen_names seen seen' s.1 s.2.1 s.2.2 hext).1 p hp
              exact ⟨q, hq, hqn.trans hpn⟩
            · simp only [List.mem_singleton] at hu
              rw [hu]
              exact (extendSeen_names seen seen' s.1 s.2.1 s.2.2 hext).2
          obtain ⟨e, he⟩ := ih (done ++ [s]) seen' t0 t hinv1 hinv2
            (by rw [hassoc]; exact hfind) htrest htc htdot hnx hny
          exact ⟨e, by simp only [scanCells, if_neg hdot, hext]; exact he⟩

/-- C7: `parse` fails with a `FormatError` on every input some of whose
rows have a character count differing from the row count, and on every
input containing no cell with the reserved main-piece character `'R'`;
a square description containing `'R'` never fails for either of those
two reasons. -/
theorem c7_parse_square_and_main (rows : List (List Char)) :
    ((∃ r ∈ rows, r.length ≠ rows.length) →
      ∃ e, parse rows = Except.error e) ∧
    ((∀ r ∈ rows, 'R' ∉ r) → ∃ e, parse rows = Except.error e) ∧
    ((∀ r ∈ rows, r.length = rows.length) → (∃ r ∈ rows, 'R' ∈ r) →
      parse rows ≠ Except.error FormatErr.nonSquare ∧
      parse rows ≠ Except.error FormatErr.missingMain) := by
  refine ⟨?_, ?_, ?_⟩
  · intro hbad
    obtain ⟨e, he⟩ := parseRows_err_of_nonsquare rows rows.length 0 [] hbad
    exact ⟨e, by simp only [parse, he]⟩
  · intro hnoR
    by_cases hsq : ∀ r ∈ rows, r.length = rows.length
    · have hbridge := parseRows_eq_scan rows rows.length 0 [] hsq
      cases hsc : scanCells [] (cellsList 0 rows) with
      | error e => exact ⟨e, by simp only [parse, hbridge, hsc]⟩
      | ok out =>
        have hanyfalse : out.any (fun p => p.name = 'R') = false := by
          rw [List.any_eq_false]
          intro q hq
          simp only [decide_eq_true_eq]
          intro hqR
          rcases scanCells_names_from (cellsList 0 rows) [] out hsc q hq
            with ⟨p, hp, -⟩ | ⟨t, ht, htn⟩
          · cases hp
          · obtain ⟨r, hr, hcr⟩ := cellsList_chars rows 0 t ht
            rw [htn, hqR] at hcr
            exact hnoR r hr hcr
        exact ⟨FormatErr.missingMain,
          by simp [parse, hbridge, hsc, hanyfalse]⟩
    · push_neg at hsq
      obtain ⟨e, he⟩ := parseRows_err_of_nonsquare rows rows.length 0 [] hsq
      exact ⟨e, by simp only [parse, he]⟩
  · intro hsq hR
    have hbridge := parseRows_eq_scan rows rows.length 0 [] hsq
    cases hsc : scanCells [] (cellsList 0 rows) with
    | error e =>
      have hns : e = FormatErr.nonStraight := scanCells_err _ [] e hsc
      subst hns
      constructor <;> simp [parse, hbridge, hsc]
    | ok out =>
      obtain ⟨t, ht, htn⟩ := cellsList_of_char rows 0 'R' hR
      obtain ⟨q, hq, hqn⟩ := scanCells_records (cellsList 0 rows) [] out hsc
        t ht (by rw [htn]; decide)
      have hany : out.any (fun p => p.name = 'R') = true := by
        rw [List.any_eq_true]
        exact ⟨q, hq, by simp [hqn.trans htn]⟩
      constructor <;> simp [parse, hbridge, hsc, hany]

theorem c7_witness :
    (parse [['R'], ['R', 'R']]).isOk = false ∧
    (parse [['A']]).isOk = false ∧
    parse exRows ≠ Except.error FormatErr.nonSquare ∧
    parse exRows ≠ Except.error FormatErr.missingMain := by
  refine ⟨?_, ?_, ?_, ?_⟩
  · obtain ⟨e, he⟩ := (c7_parse_square_and_main [['R'], ['R', 'R']]).1
      (by decide)
    rw [he]
    rfl
  · obtain ⟨e, he⟩ := (c7_parse_square_and_main [['A']]).2.1 (by decide)
    rw [he]
    rfl
  · exact ((c7_parse_square_and_main exRows).2.2 (by decide) (by decide)).1
  · exact ((c7_parse_square_and_main exRows).2.2 (by decide) (by decide)).2

/-- A description has an off-axis cell when some non-empty character has
an occurrence sharing neither the row nor the column of that
character's first occurrence in scan order. -/
def OffAxisCell (rows : List (List Char)) : Prop :=
  ∃ t0 t : Char × Int × Int,
    t0.1 ≠ '.' ∧
    (cellsList 0 rows).find? (fun s => s.1 = t0.1) = some t0 ∧
    t ∈ cellsList 0 rows ∧ t.1 = t0.1 ∧
    t.2.1 ≠ t0.2.1 ∧ t.2.2 ≠ t0.2.2

/-- C4 (amended): `parse` fails with a `FormatError` on every
description in which some character has an occurrence sharing neither
the row nor the column of that character's first occurrence.  Other
L-shaped or disconnected clusters — those whose every cell shares the
first cell's row or column — are accepted (see the counterexample). -/
theorem c4_parse_rejects_offaxis (rows : List (List Char))
    (hoff : OffAxisCell rows) : ∃ e, parse rows = Except.error e := by
  by_cases hsq : ∀ r ∈ rows, r.length = rows.length
  · obtain ⟨t0, t, htdot, hfind, ht, htc, hnx, hny⟩ := hoff
    have hbridge := parseRows_eq_scan rows rows.length 0 [] hsq
    obtain ⟨e, he⟩ := scanCells_err_of_offaxis (cellsList 0 rows) [] []
      t0 t (by intro p hp; cases hp) (by intro s hs; cases hs)
      (by simpa using hfind) ht htc htdot hnx hny
    exact ⟨e, by simp only [parse, hbridge, he]⟩
  · push_neg at hsq
    obtain ⟨e, he⟩ := parseRows_err_of_nonsquare rows rows.length 0 [] hsq
    exact ⟨e, by simp only [parse, he]⟩

theorem c4_witness : (parse [['A', 'A'], ['.', 'A']]).isOk = false := by
  obtain ⟨e, he⟩ := c4_parse_rejects_offaxis [['A', 'A'], ['.', 'A']]
    ⟨('A', 0, 0), ('A', 1, 1), by decide, by decide, by decide, rfl,
     by decide, by decide⟩
  rw [he]
  rfl

def c4rows : List (List Char) := [['A', 'A', '.'], ['A', '.', '.'],
  ['R', 'R', '.']]

/-- C4 counterexample: in `AA. / A.. / RR.` the `A` cells are (0,0),
(1,0) and (0,1) — an L-shaped cluster that neither all shares one row
nor all shares one column — yet `parse` accepts the description,
producing a VERTICAL `A` of size 3. -/
theorem c4_counterexample :
    parse c4rows = Except.ok ⟨3,
      [⟨'A', 0, 0, Orientation.vertical, 3⟩,
       ⟨'R', 0, 2, Orientation.horizontal, 2⟩]⟩ ∧
    ((cellsList 0 c4rows).filter (fun t => t.1 = 'A')).map
      (fun t => t.2) = [(0, 0), (1, 0), (0, 1)] ∧
    ¬ (∃ r : Int, ∀ q ∈ [((0 : Int), (0 : Int)), (1, 0), (0, 1)],
      q.2 = r) ∧
    ¬ (∃ cl : Int, ∀ q ∈ [((0 : Int), (0 : Int)), (1, 0), (0, 1)],
      q.1 = cl) := by
  refine ⟨by rfl, by rfl, ?_, ?_⟩
  · rintro ⟨r, h⟩
    have h0 := h (0, 0) (by simp)
    have h1 := h (0, 1) (by simp)
    simp only at h0 h1
    omega
  · rintro ⟨cl, h⟩
    have h0 := h (0, 0) (by simp)
    have h1 := h (1, 0) (by simp)
    simp only at h0 h1
    omega

end Gridlock
